import Mathlib

/-!
Verification of the Weibo hot-search monitoring pipeline (mapper.py,
reducer.py, cooccurrence_mapper.py, cooccurrence_reducer.py, segment.py).

The Python sources are embedded shallowly: each Python function becomes a
Lean definition over `String` / `List` / `Int`, line-oriented stdin becomes
a `List String`, and the module-level streaming loops become folds over
that list.  Python semantics modelled explicitly:

* `str.strip()` strips the ASCII whitespace characters space, tab, newline,
  carriage return, vertical tab and form feed from both ends.
* `s.split(sep, 1)` splits at the first occurrence of the separator.
* `s.split()` splits on whitespace runs, dropping empty pieces.
* `int(s)` accepts surrounding whitespace, an optional sign and a nonempty
  ASCII digit sequence with single underscores allowed between digits.
* `a in b` on strings is the contiguous-substring test.
* string comparison is lexicographic on code points.
* `sorted(xs, key=lambda x: x[1], reverse=True)` is a stable descending
  sort by the second component (insertion sort below is stable).
* a `dict` literal keeps the first position of a repeated key but its last
  value; iteration order is insertion order.
* `list.remove(x)` deletes the first occurrence of `x`; removing while
  iterating shifts the remaining elements under the loop index.
* the float comparison `count > existing_count * 0.7` is modelled with
  exact IEEE double semantics (`pyGt07` below): `existing_count` is rounded
  to the nearest double, multiplied by the double nearest 0.7 with one more
  round-to-nearest-ties-even, and the integer `count` is compared with the
  result exactly, as CPython compares an int with a float.  For example
  `63 > 90 * 0.7` is true because `90 * 0.7` rounds to 62.99999999999999,
  while `7 > 10 * 0.7` is false because `10 * 0.7` rounds to exactly 7.0.
-/

/-! ## Python string primitives -/

/-- Whitespace characters stripped by Python `str.strip()` (ASCII range). -/
def pyIsWs (c : Char) : Bool :=
  c = ' ' || c = '\t' || c = '\n' || c = '\r' || c = Char.ofNat 11 || c = Char.ofNat 12

/-- Strip `pyIsWs` characters from both ends of a character list. -/
def stripChars (l : List Char) : List Char :=
  ((l.dropWhile pyIsWs).reverse.dropWhile pyIsWs).reverse

/-- Python `str.strip()`. -/
def pyStrip (s : String) : String := ⟨stripChars s.data⟩

/-- Python `a in b` on strings: contiguous substring test. -/
def isSubstr (a b : String) : Bool := decide (a.data <:+: b.data)

/-- Python `s.startswith(p)`. -/
def strStarts (p s : String) : Bool := decide (p.data <+: s.data)

/-- Split a character list at the first occurrence of `sep`
(Python `s.split(sep, 1)` when the separator occurs). -/
def breakAt (sep : Char) : List Char → Option (List Char × List Char)
  | [] => none
  | c :: rest =>
    if c = sep then some ([], rest)
    else (breakAt sep rest).map (fun p => (c :: p.1, p.2))

/-- Python `s.split()` on a character list: whitespace-run separated pieces. -/
def wsSplitCore (l : List Char) : List (List Char) :=
  (l.foldr
    (fun c acc =>
      if pyIsWs c then [] :: acc
      else
        match acc with
        | [] => [[c]]
        | t :: rest => (c :: t) :: rest)
    []).filter (fun t => !t.isEmpty)

/-- Python `s.split()` with no arguments. -/
def pySplitWs (s : String) : List String := (wsSplitCore s.data).map String.mk

/-- Numeric value of an ASCII digit. -/
def digitVal (c : Char) : Nat := c.toNat - 48

/-- Digit tail of a Python integer literal: digits with single underscores
allowed between digits. -/
def pyDigitsAux : Nat → List Char → Option Nat
  | acc, [] => some acc
  | acc, c :: rest =>
    if c.isDigit then pyDigitsAux (acc * 10 + digitVal c) rest
    else if c = '_' then
      match rest with
      | [] => none
      | d :: rest2 =>
        if d.isDigit then pyDigitsAux (acc * 10 + digitVal d) rest2 else none
    else none

/-- Nonempty Python digit sequence. -/
def pyParseDigits : List Char → Option Nat
  | [] => none
  | c :: rest => if c.isDigit then pyDigitsAux (digitVal c) rest else none

/-- Python `int(s)`: strip whitespace, optional sign, digit sequence. -/
def pyParseInt (s : String) : Option Int :=
  match stripChars s.data with
  | '+' :: rest => (pyParseDigits rest).map (fun n => (n : Int))
  | '-' :: rest => (pyParseDigits rest).map (fun n => -(n : Int))
  | rest => (pyParseDigits rest).map (fun n => (n : Int))

/-- Python `s.isdigit()` restricted to ASCII digits. -/
def pyIsdigit (s : String) : Bool := !s.isEmpty && s.data.all Char.isDigit

/-- Python string `<`: lexicographic comparison of code-point sequences. -/
def strLtb : List Char → List Char → Bool
  | [], [] => false
  | [], _ :: _ => true
  | _ :: _, [] => false
  | a :: as, b :: bs =>
    if a.toNat < b.toNat then true
    else if b.toNat < a.toNat then false
    else strLtb as bs

/-- Python `a < b` on strings. -/
def pyStrLt (a b : String) : Bool := strLtb a.data b.data

/-! ## Stable sorts (Python `sorted` / `list.sort`) -/

/-- Insert a pair into a count-descending list after all entries of count
`≥ p.2` (this makes the insertion sort stable, like Python `sorted` with
`key=lambda x: x[1], reverse=True`). -/
def insertCountDesc (p : String × Int) : List (String × Int) → List (String × Int)
  | [] => [p]
  | q :: rest => if p.2 ≤ q.2 then q :: insertCountDesc p rest else p :: q :: rest

/-- Python `sorted(xs, key=lambda x: x[1], reverse=True)`. -/
def sortCountDesc (l : List (String × Int)) : List (String × Int) :=
  l.foldl (fun acc p => insertCountDesc p acc) []

/-- Insert a string into an ascending list (stable). -/
def insertStrAsc (x : String) : List String → List String
  | [] => [x]
  | y :: rest => if pyStrLt x y then x :: y :: rest else y :: insertStrAsc x rest

/-- Python `sorted(strings)`. -/
def sortStrAsc (l : List String) : List String :=
  l.foldl (fun acc x => insertStrAsc x acc) []

/-! ## mapper.py -/

namespace Mapper

/-- `SEMANTIC_GROUPS` of mapper.py, an ordered association list
standard ↦ variants. -/
def SEMANTIC_GROUPS : List (String × List String) :=
  [("火灾事故", ["火灾", "事故", "起火", "失火", "着火"]),
   ("调查报告", ["报告", "调查", "通报", "结果", "结论"]),
   ("展品", ["文物", "展品", "藏品", "古董", "艺术品"]),
   ("真假", ["真伪", "真假", "伪造", "赝品"]),
   ("怀孕", ["怀孕", "妊娠", "有孕", "有喜", "准妈妈"]),
   ("发声", ["发声", "回应", "表态", "说话"]),
   ("质疑", ["质疑", "怀疑", "争议"]),
   ("驾车", ["开车", "驾车", "驾驶"]),
   ("身亡", ["死亡", "身亡", "去世", "逝世", "丧命"]),
   ("手术", ["手术", "开刀", "治疗", "救治"]),
   ("利用漏洞", ["漏洞", "利用", "系统漏洞", "黑客"]),
   ("智力障碍", ["智力", "障碍", "智障", "残疾"]),
   ("博物馆", ["博物馆", "展馆", "美术馆", "博物院"]),
   ("格莱美", ["格莱美", "grammy", "颁奖礼"]),
   ("旗舰", ["旗舰", "高端", "顶级", "豪华"]),
   ("镜头", ["镜头", "画面", "影像"]),
   ("舞台", ["舞台", "表演", "演出现场"])]

end Mapper

/-- The loop of `normalize_semantic`: first group whose variant list
contains the word, or whose standard label equals it. -/
def lookupSemantic : List (String × List String) → String → Option String
  | [], _ => none
  | (standard, variants) :: rest, word =>
    if variants.contains word || word = standard then some standard
    else lookupSemantic rest word

namespace Mapper

/-- `normalize_semantic` of mapper.py. -/
def normalize_semantic (word : String) : String :=
  (lookupSemantic SEMANTIC_GROUPS word).getD word

/-- `normalize_word_mapper` of mapper.py (just `normalize_semantic`). -/
def normalize_word_mapper (word : String) : String := normalize_semantic word

end Mapper

/-- Weight computation in mapper.py `main`:
`weight = 51 - rank; if weight < 1: weight = 1`. -/
def weightOfRank (rank : Int) : Int :=
  let w := 51 - rank
  if w < 1 then 1 else w

/-- Line parsing of mapper.py `main`: strip, require a comma, split once,
parse the rank as an int, strip the token payload, require it nonempty,
whitespace-split it.  `none` means the line is skipped. -/
def parseMapLine (line : String) : Option (Int × List String) :=
  let l := pyStrip line
  if l.isEmpty || !l.data.contains ',' then none
  else
    match breakAt ',' l.data with
    | none => none
    | some (rankCs, restCs) =>
      let rankStr := pyStrip ⟨rankCs⟩
      let toksStr := pyStrip ⟨restCs⟩
      match pyParseInt rankStr with
      | none => none
      | some rank =>
        if toksStr.isEmpty then none else some (rank, pySplitWs toksStr)

/-- Mapper state: the `seen` set and the emitted `(key, weight)` records. -/
def MapState := List String × List (String × Int)

/-- Token body of mapper.py `main`'s inner loop. -/
def mapperProcessToken (weight : Int) (st : MapState) (token : String) : MapState :=
  let normalized := Mapper.normalize_word_mapper token
  if normalized.isEmpty || normalized.length < 2 then st
  else if st.1.contains normalized then st
  else (normalized :: st.1, st.2 ++ [(normalized, weight)])

/-- Line body of mapper.py `main`'s outer loop. -/
def mapperProcessLine (st : MapState) (line : String) : MapState :=
  match parseMapLine line with
  | none => st
  | some (rank, tokens) => tokens.foldl (mapperProcessToken (weightOfRank rank)) st

/-- mapper.py `main` over a whole stdin stream: the emitted records.
Note that `seen` is initialised once, before the line loop. -/
def mapperRun (lines : List String) : List (String × Int) :=
  (lines.foldl mapperProcessLine (([], []) : MapState)).2

/-- The normalized keys of a token list that pass the mapper's length
filter (`normalized` nonempty and of length ≥ 2). -/
def validKeys (tokens : List String) : List String :=
  tokens.filterMap (fun t =>
    let n := Mapper.normalize_word_mapper t
    if n.isEmpty || n.length < 2 then none else some n)

/-- First-occurrence deduplication, skipping elements already in `seen`. -/
def dedupFirstAux (seen : List String) : List String → List String
  | [] => []
  | x :: rest =>
    if seen.contains x then dedupFirstAux seen rest
    else x :: dedupFirstAux (x :: seen) rest

/-- First-occurrence deduplication of a list. -/
def dedupFirst (l : List String) : List String := dedupFirstAux [] l


/-! ## Lemmas about the mapper's token loop -/

lemma mapperProcessToken_bad (w : Int) (st : MapState) (t : String)
    (h : (Mapper.normalize_word_mapper t).isEmpty = true ∨
      (Mapper.normalize_word_mapper t).length < 2) :
    mapperProcessToken w st t = st := by
  unfold mapperProcessToken
  rcases h with h | h <;> simp [h]

lemma mapperProcessToken_seen (w : Int) (st : MapState) (t : String)
    (h1 : (Mapper.normalize_word_mapper t).isEmpty = false)
    (h2 : ¬ (Mapper.normalize_word_mapper t).length < 2)
    (h3 : st.1.contains (Mapper.normalize_word_mapper t) = true) :
    mapperProcessToken w st t = st := by
  have hm : Mapper.normalize_word_mapper t ∈ st.1 := List.elem_iff.mp h3
  unfold mapperProcessToken
  simp [h1, h2, hm]

lemma mapperProcessToken_new (w : Int) (st : MapState) (t : String)
    (h1 : (Mapper.normalize_word_mapper t).isEmpty = false)
    (h2 : ¬ (Mapper.normalize_word_mapper t).length < 2)
    (h3 : st.1.contains (Mapper.normalize_word_mapper t) = false) :
    mapperProcessToken w st t =
      ((Mapper.normalize_word_mapper t :: st.1,
        st.2 ++ [(Mapper.normalize_word_mapper t, w)]) : MapState) := by
  have hm : Mapper.normalize_word_mapper t ∉ st.1 := fun hx =>
    (Bool.eq_false_iff.mp h3) (List.elem_iff.mpr hx)
  unfold mapperProcessToken
  simp [h1, h2, hm]

lemma mapper_tok_fold (toks : List String) :
    ∀ (seen : List String) (out : List (String × Int)) (w : Int),
      (toks.foldl (mapperProcessToken w) ((seen, out) : MapState)).2 =
        out ++ (dedupFirstAux seen (validKeys toks)).map (fun k => (k, w)) := by
  induction toks with
  | nil => intro seen out w; simp [validKeys, dedupFirstAux]
  | cons t rest ih =>
    intro seen out w
    rw [List.foldl_cons]
    by_cases hbad : (Mapper.normalize_word_mapper t).isEmpty = true ∨
        (Mapper.normalize_word_mapper t).length < 2
    · have hvk : validKeys (t :: rest) = validKeys rest := by
        unfold validKeys
        rcases hbad with hb | hb <;> simp [List.filterMap_cons, hb]
      rw [mapperProcessToken_bad w _ t hbad, hvk, ih]
    · push_neg at hbad
      obtain ⟨hne, hlen⟩ := hbad
      have hne' : (Mapper.normalize_word_mapper t).isEmpty = false :=
        Bool.eq_false_iff.mpr hne
      have hlen' : ¬ (Mapper.normalize_word_mapper t).length < 2 := Nat.not_lt.mpr hlen
      have hvk : validKeys (t :: rest) =
          Mapper.normalize_word_mapper t :: validKeys rest := by
        unfold validKeys
        simp [List.filterMap_cons, hne', hlen']
      cases hseen : seen.contains (Mapper.normalize_word_mapper t) with
      | true =>
        have hs : Mapper.normalize_word_mapper t ∈ seen := List.elem_iff.mp hseen
        rw [mapperProcessToken_seen w (seen, out) t hne' hlen' hseen, ih, hvk]
        simp [dedupFirstAux, hs]
      | false =>
        have hs : Mapper.normalize_word_mapper t ∉ seen := fun hx =>
          (Bool.eq_false_iff.mp hseen) (List.elem_iff.mpr hx)
        rw [mapperProcessToken_new w (seen, out) t hne' hlen' hseen]
        rw [ih, hvk]
        simp [dedupFirstAux, hs]

/-- Invariant carried across the whole mapper stream: every emitted key is
in the seen set, and the emitted keys are pairwise distinct. -/
def MapInv (st : MapState) : Prop :=
  (∀ p ∈ st.2, st.1.contains p.1 = true) ∧ (st.2.map Prod.fst).Nodup

lemma mapper_tok_inv (w : Int) (st : MapState) (t : String) (h : MapInv st) :
    MapInv (mapperProcessToken w st t) := by
  obtain ⟨h1, h2⟩ := h
  by_cases hbad : (Mapper.normalize_word_mapper t).isEmpty = true ∨
      (Mapper.normalize_word_mapper t).length < 2
  · rw [mapperProcessToken_bad w st t hbad]; exact ⟨h1, h2⟩
  · push_neg at hbad
    have hne' : (Mapper.normalize_word_mapper t).isEmpty = false :=
      Bool.eq_false_iff.mpr hbad.1
    have hlen' : ¬ (Mapper.normalize_word_mapper t).length < 2 := Nat.not_lt.mpr hbad.2
    cases hseen : st.1.contains (Mapper.normalize_word_mapper t) with
    | true => rw [mapperProcessToken_seen w st t hne' hlen' hseen]; exact ⟨h1, h2⟩
    | false =>
      rw [mapperProcessToken_new w st t hne' hlen' hseen]
      constructor
      · intro p hp
        rcases List.mem_append.mp hp with hp | hp
        · exact List.elem_iff.mpr (List.mem_cons_of_mem _ (List.elem_iff.mp (h1 p hp)))
        · simp only [List.mem_singleton] at hp
          subst hp
          exact List.elem_iff.mpr (List.mem_cons_self _ _)
      · rw [List.map_append]
        simp only [List.map_cons, List.map_nil]
        refine List.Nodup.append h2 (List.nodup_singleton _) ?_
        intro a ha hb
        simp only [List.mem_singleton] at hb
        subst hb
        obtain ⟨p, hp, hpa⟩ := List.mem_map.mp ha
        have := h1 p hp
        rw [hpa] at this
        rw [this] at hseen
        exact absurd hseen (by simp)

lemma mapper_fold_inv (w : Int) (toks : List String) :
    ∀ st : MapState, MapInv st → MapInv (toks.foldl (mapperProcessToken w) st) := by
  induction toks with
  | nil => intro st h; exact h
  | cons t rest ih =>
    intro st h
    rw [List.foldl_cons]
    exact ih _ (mapper_tok_inv w st t h)

lemma mapper_line_inv (st : MapState) (line : String) (h : MapInv st) :
    MapInv (mapperProcessLine st line) := by
  unfold mapperProcessLine
  cases hp : parseMapLine line with
  | none => exact h
  | some v => exact mapper_fold_inv _ v.2 st h

/-- The keys emitted by the mapper over any stream are pairwise distinct
(the `seen` set lives outside the line loop). -/
lemma mapperRun_nodup (lines : List String) :
    ((mapperRun lines).map Prod.fst).Nodup := by
  unfold mapperRun
  have main : ∀ st : MapState, MapInv st → MapInv (lines.foldl mapperProcessLine st) := by
    induction lines with
    | nil => intro st h; exact h
    | cons l rest ih =>
      intro st h
      rw [List.foldl_cons]
      exact ih _ (mapper_line_inv st l h)
  exact (main (([], []) : MapState)
    ⟨fun p hp => absurd hp (List.not_mem_nil p), List.nodup_nil⟩).2

/-! ## C1 and C8 -/

/-- C1 (amended): the frequency mapper's seen-set is initialised once for
the whole stream, so dedup is global: the emitted keys over any input
stream are pairwise distinct (a key repeated in a later line is NOT
re-emitted), while within a single-line stream the mapper emits exactly
the first occurrences of the line's valid normalized keys, each once,
paired with that line's weight. -/
theorem claim1_theorem (lines : List String) (line : String) (rank : Int)
    (toks : List String) (h : parseMapLine line = some (rank, toks)) :
    ((mapperRun lines).map Prod.fst).Nodup ∧
    mapperRun [line] = (dedupFirst (validKeys toks)).map (fun k => (k, weightOfRank rank)) := by
  refine ⟨mapperRun_nodup lines, ?_⟩
  unfold mapperRun dedupFirst
  rw [List.foldl_cons, List.foldl_nil]
  unfold mapperProcessLine
  rw [h]
  simpa using mapper_tok_fold toks [] [] (weightOfRank rank)

/-- C1 witness: a concrete stream and a concrete single line. -/
theorem claim1_witness :
    ((mapperRun ["1,足球", "2,足球"]).map Prod.fst).Nodup ∧
    mapperRun ["3,足球 篮球 足球"] = [("足球", 48), ("篮球", 48)] := by
  have h := claim1_theorem ["1,足球", "2,足球"] "3,足球 篮球 足球" 3
    ["足球", "篮球", "足球"] (by decide)
  exact ⟨h.1, h.2.trans (by decide)⟩

/-- C1 counterexample: the key 足球 occurs in both lines, but the second
line yields no emission (the claim, as stated, requires the pair
(足球, 49) to be emitted for the second line). -/
theorem claim1_counterexample :
    mapperRun ["1,足球", "2,足球"] = [("足球", 50)] ∧
    ("足球", (49 : Int)) ∉ mapperRun ["1,足球", "2,足球"] ∧
    parseMapLine "2,足球" = some (2, ["足球"]) ∧ weightOfRank 2 = 49 := by
  refine ⟨by decide, ?_, by decide, by decide⟩
  intro hmem
  rw [show mapperRun ["1,足球", "2,足球"] = [("足球", 50)] from by decide] at hmem
  simp only [List.mem_singleton, Prod.mk.injEq] at hmem
  exact absurd hmem.2 (by decide)

lemma weightOfRank_eq_max (r : Int) : weightOfRank r = max 1 (51 - r) := by
  show (if 51 - r < 1 then 1 else 51 - r) = max 1 (51 - r)
  rw [max_def]
  split <;> split <;> omega

/-- C8: for every rank ≥ 1 the mapper weight is `max(1, 51 - rank)`, with
weight(1)=50, weight(50)=1, weight(60)=1, always in 1..50, and
non-increasing in the rank. -/
theorem claim8_theorem (rank : Int) (h : 1 ≤ rank) :
    weightOfRank rank = max 1 (51 - rank) ∧
    weightOfRank 1 = 50 ∧ weightOfRank 50 = 1 ∧ weightOfRank 60 = 1 ∧
    1 ≤ weightOfRank rank ∧ weightOfRank rank ≤ 50 ∧
    ∀ r2 : Int, rank ≤ r2 → weightOfRank r2 ≤ weightOfRank rank := by
  refine ⟨weightOfRank_eq_max rank, by decide, by decide, by decide, ?_, ?_, ?_⟩
  · rw [weightOfRank_eq_max]; exact le_max_left _ _
  · rw [weightOfRank_eq_max]
    exact max_le (by norm_num) (by omega)
  · intro r2 h2
    rw [weightOfRank_eq_max, weightOfRank_eq_max]
    exact max_le_max le_rfl (by omega)

/-- C8 witness: rank 5. -/
theorem claim8_witness :
    weightOfRank 5 = max 1 (51 - 5) ∧ 1 ≤ weightOfRank 5 ∧ weightOfRank 5 ≤ 50 := by
  have h := claim8_theorem 5 (by norm_num)
  exact ⟨h.1, h.2.2.2.2.1, h.2.2.2.2.2.1⟩

/-! ## reducer.py / cooccurrence_reducer.py: the streaming aggregation loop

Both reducers run the identical module-level loop: strip the line, skip it
when empty, split at the first tab (skip when there is none), parse the
value as an int (skip on failure), then sum the value into the running
accumulator while the key is unchanged, appending `(current_word,
current_sum)` on key change and flushing the trailing group at the end. -/

/-- Parse one reducer input line; `none` means the line is skipped. -/
def parseRedLine (line : String) : Option (String × Int) :=
  let l := pyStrip line
  if l.isEmpty then none
  else
    match breakAt '\t' l.data with
    | none => none
    | some (w, rest) => (pyParseInt ⟨rest⟩).map (fun c => ((⟨w⟩ : String), c))

/-- Reducer state: the current `(word, running sum)` group, if any, and
the groups already emitted. -/
def RedState := Option (String × Int) × List (String × Int)

/-- One parsed record through the reducer accumulator. -/
def redStepP (st : RedState) (p : String × Int) : RedState :=
  match st.1 with
  | some (cw, cs) =>
    if cw = p.1 then (some (cw, cs + p.2), st.2)
    else (some (p.1, p.2), st.2 ++ [(cw, cs)])
  | none => (some (p.1, p.2), st.2)

/-- One raw line through the reducer loop. -/
def redStep (st : RedState) (line : String) : RedState :=
  match parseRedLine line with
  | none => st
  | some p => redStepP st p

/-- End-of-input flush of the trailing group. -/
def redFlush (st : RedState) : List (String × Int) :=
  match st.1 with
  | some p => st.2 ++ [p]
  | none => st.2

/-- The aggregation loop of reducer.py (building `aggregated`) and of
cooccurrence_reducer.py `main` (its printed pairs), over a whole stream. -/
def aggregateLines (lines : List String) : List (String × Int) :=
  redFlush (lines.foldl redStep ((none, []) : RedState))

/-- The same accumulator over already-parsed records. -/
def aggPairs (ps : List (String × Int)) : List (String × Int) :=
  redFlush (ps.foldl redStepP ((none, []) : RedState))

/-- Merge of adjacent runs, starting inside a run for `w` with partial sum
`acc` (the mathematical description of the streaming accumulator). -/
def groupRunsAux (w : String) (acc : Int) : List (String × Int) → List (String × Int)
  | [] => [(w, acc)]
  | (k, v) :: rest =>
    if w = k then groupRunsAux w (acc + v) rest
    else (w, acc) :: groupRunsAux k v rest

/-- `grouped` over raw keys: once a key's run ends it never reappears.
`cur` is the key of the current run, `fin` the finished keys. -/
def groupedFrom (cur : String) (fin : List String) : List String → Bool
  | [] => true
  | k :: rest =>
    if k = cur then groupedFrom cur fin rest
    else if fin.contains k then false
    else groupedFrom k (cur :: fin) rest

/-- A key sequence is grouped when equal keys are contiguous. -/
def grouped : List String → Bool
  | [] => true
  | k :: rest => groupedFrom k [] rest

/-- Sum of the values attached to key `k` in a record list. -/
def sumFor (k : String) (ps : List (String × Int)) : Int :=
  ((ps.filter (fun p => p.1 = k)).map Prod.snd).sum

lemma redFold_eq (lines : List String) :
    ∀ st : RedState,
      lines.foldl redStep st = (lines.filterMap parseRedLine).foldl redStepP st := by
  induction lines with
  | nil => intro st; rfl
  | cons l rest ih =>
    intro st
    rw [List.foldl_cons, List.filterMap_cons]
    cases hp : parseRedLine l with
    | none =>
      have hstep : redStep st l = st := by unfold redStep; rw [hp]
      rw [hstep, ih]
    | some p =>
      have hstep : redStep st l = redStepP st p := by unfold redStep; rw [hp]
      rw [hstep, List.foldl_cons, ih]

/-- Malformed lines are invisible to the aggregation: the loop over raw
lines equals the loop over the successfully parsed records. -/
lemma aggregateLines_eq_aggPairs (lines : List String) :
    aggregateLines lines = aggPairs (lines.filterMap parseRedLine) := by
  unfold aggregateLines aggPairs
  rw [redFold_eq]

lemma sumFor_cons (k k1 : String) (v1 : Int) (ps : List (String × Int)) :
    sumFor k ((k1, v1) :: ps) = (if k1 = k then v1 else 0) + sumFor k ps := by
  unfold sumFor
  rw [List.filter_cons]
  split <;> simp_all

lemma sumFor_eq_zero (k : String) (ps : List (String × Int))
    (h : k ∉ ps.map Prod.fst) : sumFor k ps = 0 := by
  unfold sumFor
  have : ps.filter (fun p => p.1 = k) = [] := by
    rw [List.filter_eq_nil_iff]
    intro p hp
    simp only [decide_eq_true_eq]
    intro he
    exact h (List.mem_map.mpr ⟨p, hp, he⟩)
  rw [this]
  rfl

lemma redFoldP (ps : List (String × Int)) :
    ∀ (agg : List (String × Int)) (w : String) (acc : Int),
      redFlush (ps.foldl redStepP ((some (w, acc), agg) : RedState)) =
        agg ++ groupRunsAux w acc ps := by
  induction ps with
  | nil => intro agg w acc; rfl
  | cons p rest ih =>
    intro agg w acc
    obtain ⟨k, v⟩ := p
    rw [List.foldl_cons]
    by_cases hk : w = k
    · have hstep : redStepP ((some (w, acc), agg) : RedState) (k, v) =
          ((some (w, acc + v), agg) : RedState) := by
        unfold redStepP
        simp [hk]
      rw [hstep, ih, groupRunsAux, if_pos hk]
    · have hstep : redStepP ((some (w, acc), agg) : RedState) (k, v) =
          ((some (k, v), agg ++ [(w, acc)]) : RedState) := by
        unfold redStepP
        simp [hk]
      rw [hstep, ih, groupRunsAux, if_neg hk, List.append_assoc]
      rfl

lemma aggPairs_cons (k : String) (v : Int) (ps : List (String × Int)) :
    aggPairs ((k, v) :: ps) = groupRunsAux k v ps := by
  unfold aggPairs
  rw [List.foldl_cons]
  have hstep : redStepP ((none, []) : RedState) (k, v) =
      ((some (k, v), []) : RedState) := rfl
  rw [hstep, redFoldP]
  rfl

/-- Correctness of the run-merging accumulator over a grouped key stream:
distinct output keys, exactly the input keys, each with the total sum. -/
lemma groupRuns_spec (ps : List (String × Int)) :
    ∀ (cur : String) (fin : List String) (acc : Int),
      groupedFrom cur fin (ps.map Prod.fst) = true → cur ∉ fin →
      (((groupRunsAux cur acc ps).map Prod.fst).Nodup) ∧
      (∀ k, k ∈ (groupRunsAux cur acc ps).map Prod.fst ↔
        (k = cur ∨ k ∈ ps.map Prod.fst)) ∧
      (∀ k c, (k, c) ∈ groupRunsAux cur acc ps →
        c = (if k = cur then acc else 0) + sumFor k ps) ∧
      (∀ k ∈ (groupRunsAux cur acc ps).map Prod.fst, k ∉ fin) := by
  induction ps with
  | nil =>
    intro cur fin acc _ hcur
    refine ⟨?_, ?_, ?_, ?_⟩
    · simp [groupRunsAux]
    · intro k; simp [groupRunsAux]
    · intro k c hkc
      simp only [groupRunsAux, List.mem_singleton, Prod.mk.injEq] at hkc
      obtain ⟨hk, hc⟩ := hkc
      subst hk; subst hc
      simp [sumFor]
    · intro k hk
      simp only [groupRunsAux, List.map_cons, List.map_nil, List.mem_singleton] at hk
      subst hk
      exact hcur
  | cons p rest ih =>
    intro cur fin acc hg hcur
    obtain ⟨k, v⟩ := p
    simp only [List.map_cons] at hg
    unfold groupedFrom at hg
    by_cases hk : k = cur
    · rw [if_pos hk] at hg
      subst hk
      unfold groupRunsAux
      rw [if_pos rfl]
      obtain ⟨ha, hb, hc, hd⟩ := ih k fin (acc + v) hg hcur
      refine ⟨ha, ?_, ?_, hd⟩
      · intro k2
        rw [hb k2]
        simp only [List.map_cons, List.mem_cons]
        tauto
      · intro k2 c2 hmem
        have := hc k2 c2 hmem
        rw [this, sumFor_cons]
        by_cases hk2 : k2 = k
        · subst hk2
          simp only [eq_self_iff_true, if_true]
          ring
        · have hk2a : ¬ k = k2 := fun h => hk2 h.symm
          simp only [if_neg hk2, if_neg hk2a]
          ring
    · rw [if_neg hk] at hg
      have hkfin : fin.contains k = false := by
        cases hf : fin.contains k with
        | true => rw [hf] at hg; simp at hg
        | false => rfl
      rw [hkfin] at hg
      simp only [Bool.false_eq_true, if_false] at hg
      have hknotfin : k ∉ fin := fun hx =>
        (Bool.eq_false_iff.mp hkfin) (List.elem_iff.mpr hx)
      have hkcur : k ∉ (cur :: fin) := by
        intro hx
        rcases List.mem_cons.mp hx with hx | hx
        · exact hk hx
        · exact hknotfin hx
      obtain ⟨ha, hb, hc, hd⟩ := ih k (cur :: fin) v hg hkcur
      have hrestcur : ∀ x ∈ rest.map Prod.fst, x ≠ cur := by
        intro x hx
        have hxout : x ∈ (groupRunsAux k v rest).map Prod.fst := (hb x).mpr (Or.inr hx)
        have := hd x hxout
        intro hxx
        exact this (hxx ▸ List.mem_cons_self cur fin)
      have hcurnot : cur ∉ ((k, v) :: rest).map Prod.fst := by
        simp only [List.map_cons, List.mem_cons]
        rintro (hx | hx)
        · exact hk hx.symm
        · exact hrestcur cur hx rfl
      unfold groupRunsAux
      rw [if_neg (fun hx => hk hx.symm)]
      constructor
      · simp only [List.map_cons]
        rw [List.nodup_cons]
        refine ⟨?_, ha⟩
        intro hx
        have := hd cur hx
        exact this (List.mem_cons_self cur fin)
      constructor
      · intro k2
        simp only [List.map_cons, List.mem_cons]
        rw [hb k2]
      constructor
      · intro k2 c2 hmem
        rcases List.mem_cons.mp hmem with hmem | hmem
        · simp only [Prod.mk.injEq] at hmem
          obtain ⟨rfl, rfl⟩ := hmem
          rw [if_pos rfl, sumFor_eq_zero _ _ hcurnot]
          ring
        · have hk2mem : k2 ∈ (groupRunsAux k v rest).map Prod.fst :=
            List.mem_map.mpr ⟨(k2, c2), hmem, rfl⟩
          have hk2cur : k2 ≠ cur := fun hx =>
            (hd k2 hk2mem) (hx ▸ List.mem_cons_self cur fin)
          have := hc k2 c2 hmem
          rw [this, sumFor_cons, if_neg hk2cur]
          by_cases hk2 : k2 = k
          · subst hk2
            simp only [eq_self_iff_true, if_true]
            ring
          · have hk2a : ¬ k = k2 := fun h => hk2 h.symm
            simp only [if_neg hk2, if_neg hk2a]
            ring
      · intro k2 hk2
        simp only [List.map_cons, List.mem_cons] at hk2
        rcases hk2 with hk2 | hk2
        · exact hk2 ▸ hcur
        · intro hx
          have := hd k2 hk2
          exact this (List.mem_cons_of_mem cur hx)

/-- C5: when the well-formed lines of a reducer input arrive grouped by
key, the aggregation loop (reducer.py building `aggregated`,
cooccurrence_reducer.py printing directly) emits each distinct parsed key
exactly once, with its total sum (trailing group included), and malformed
lines are skipped without affecting any sum (the outcome only depends on
the successfully parsed records). -/
theorem claim5_theorem (lines : List String)
    (h : grouped ((lines.filterMap parseRedLine).map Prod.fst) = true) :
    ((aggregateLines lines).map Prod.fst).Nodup ∧
    (∀ k, k ∈ (aggregateLines lines).map Prod.fst ↔
      k ∈ (lines.filterMap parseRedLine).map Prod.fst) ∧
    (∀ k c, (k, c) ∈ aggregateLines lines →
      c = sumFor k (lines.filterMap parseRedLine)) ∧
    aggregateLines lines = aggPairs (lines.filterMap parseRedLine) := by
  have heq := aggregateLines_eq_aggPairs lines
  rw [heq] at *
  refine ?_
  cases hps : lines.filterMap parseRedLine with
  | nil =>
    refine ⟨by simp [aggPairs, redFlush], ?_, ?_, rfl⟩
    · intro k; simp [aggPairs, redFlush]
    · intro k c hkc; simp [aggPairs, redFlush] at hkc
  | cons p ps =>
    obtain ⟨k0, v0⟩ := p
    rw [hps] at h
    simp only [List.map_cons] at h
    have hgf : groupedFrom k0 [] (ps.map Prod.fst) = true := h
    obtain ⟨ha, hb, hc, _⟩ :=
      groupRuns_spec ps k0 [] v0 hgf (List.not_mem_nil k0)
    rw [aggPairs_cons]
    refine ⟨ha, ?_, ?_, rfl⟩
    · intro k
      rw [hb k]
      simp only [List.map_cons, List.mem_cons]
    · intro k c hkc
      have := hc k c hkc
      rw [this, sumFor_cons]
      by_cases hk : k = k0
      · subst hk
        simp only [eq_self_iff_true, if_true]
      · have hka : ¬ k0 = k := fun hx => hk hx.symm
        simp only [if_neg hk, if_neg hka]

/-- C5 witness: a grouped stream with one malformed line. -/
theorem claim5_witness :
    grouped (((["a\t2", "nonsense", "a\t3", "b\t4"].filterMap
      parseRedLine)).map Prod.fst) = true ∧
    ((aggregateLines ["a\t2", "nonsense", "a\t3", "b\t4"]).map Prod.fst).Nodup ∧
    aggregateLines ["a\t2", "nonsense", "a\t3", "b\t4"] = [("a", 5), ("b", 4)] := by
  have h := claim5_theorem ["a\t2", "nonsense", "a\t3", "b\t4"] (by decide)
  exact ⟨by decide, h.1, by decide⟩

/-! ## deduplicate_by_inclusion (identical in reducer.py and segment.py)

The Python loop `for existing_word, existing_count in result:` iterates by
index over `result` while `result.remove(...)` may shrink it: after a
removal at the current index the following element shifts onto that index and
the incremented loop index skips it.  `dedupScan` renders this exactly: it
walks an explicit index `i` over the current list, removing the first
occurrence of the scanned pair on a successful replacement test.  The
replacement test is the float comparison `count > existing_count * 0.7`,
modelled bit-exactly by `pyGt07`.  The `fuel` argument only makes the
recursion structural; `dedupScan_fuel` shows any fuel > remaining
iterations gives the same result, and the wrapper passes
`result.length + 1`, which always suffices since the list never grows
and `i` increases every step. -/

/-- Bit length of a natural number.  The first argument is fuel making
the recursion structural; fuel `n` always suffices for input `n`, since
the bit length of `n` is at most `n`. -/
def bitLenAux : Nat → Nat → Nat
  | 0, _ => 0
  | fuel + 1, n => if n = 0 then 0 else bitLenAux fuel (n / 2) + 1

/-- Bit length of a natural number. -/
def bitLen (n : Nat) : Nat := bitLenAux n n

/-- Round a natural number to at most 53 significant bits with IEEE
round-to-nearest, ties-to-even; the result `(m, t)` denotes the real
value `m * 2^t`. -/
def rne53 (a : Nat) : Nat × Nat :=
  if a < 2 ^ 53 then (a, 0)
  else
    let shift := bitLen a - 53
    let s := a / 2 ^ shift
    let r := a % 2 ^ shift
    let half := 2 ^ (shift - 1)
    if half < r || (r = half && s % 2 = 1) then (s + 1, shift) else (s, shift)

/-- Numerator of the IEEE double nearest to 0.7:
`0.7 = 3152519739159347 / 2^52 = 0.6999999999999999555910790149937...`. -/
def sevenTenthsNum : Nat := 3152519739159347

/-- The Python test `count > existing_count * 0.7`, with exact IEEE
double semantics: `float(existing_count)` is the nearest double
(round-to-nearest, ties-to-even), the multiplication by the double 0.7
rounds once more, and CPython then compares the int `count` with the
resulting float exactly (without converting the int to a float).
Signs are handled symmetrically, as IEEE rounding is.  This is
bit-exact for every `existing_count` whose conversion to a double does
not overflow (|existing_count| up to about 1.8e308 — beyond that Python
raises OverflowError and the job dies, which a total function cannot
render; the dedup inputs are sums of per-line weights ≤ 50, vastly
below that). -/
def pyGt07 (c ec : Int) : Bool :=
  let p1 := rne53 ec.natAbs
  let p2 := rne53 (p1.1 * sevenTenthsNum)
  let t : Int := (p2.1 : Int) * 2 ^ (p1.2 + p2.2)
  decide ((if ec < 0 then -t else t) < c * 2 ^ 52)

/-- Python `list.remove(x)`: delete the first occurrence. -/
def removeFirst (x : String × Int) : List (String × Int) → List (String × Int)
  | [] => []
  | y :: rest => if y = x then rest else y :: removeFirst x rest

/-- The inner `for existing_word, existing_count in result` loop for a
candidate `(w, c)`: returns the surviving `result` list and Python's
`should_add` flag.  `pyGt07 c ec` is the float test
`count > existing_count * 0.7` in exact IEEE double semantics. -/
def dedupScan (w : String) (c : Int) : Nat → List (String × Int) → Nat →
    List (String × Int) × Bool
  | 0, result, _ => (result, true)
  | fuel + 1, result, i =>
    if h : i < result.length then
      let ew := (result.get ⟨i, h⟩).1
      let ec := (result.get ⟨i, h⟩).2
      if isSubstr w ew then (result, false)
      else if isSubstr ew w then
        if pyGt07 c ec then
          dedupScan w c fuel (removeFirst (ew, ec) result) (i + 1)
        else (result, false)
      else dedupScan w c fuel result (i + 1)
    else (result, true)

/-- One candidate through the outer loop: scan, then append when
`should_add` survived. -/
def dedupStep (result : List (String × Int)) (p : String × Int) :
    List (String × Int) :=
  match dedupScan p.1 p.2 (result.length + 1) result 0 with
  | (r, true) => r ++ [p]
  | (r, false) => r

/-- `deduplicate_by_inclusion`: sort by count descending, run the
inclusion scan over the candidates, re-sort descending. -/
def deduplicate_by_inclusion (l : List (String × Int)) : List (String × Int) :=
  if l.isEmpty then []
  else sortCountDesc ((sortCountDesc l).foldl dedupStep [])

lemma removeFirst_length (x : String × Int) :
    ∀ l : List (String × Int), x ∈ l → (removeFirst x l).length + 1 = l.length := by
  intro l hx
  induction l with
  | nil => cases hx
  | cons y rest ih =>
    unfold removeFirst
    by_cases hy : y = x
    · rw [if_pos hy]; rfl
    · rw [if_neg hy]
      have hx2 : x ∈ rest := by
        rcases List.mem_cons.mp hx with h | h
        · exact absurd h.symm hy
        · exact h
      simp only [List.length_cons]
      rw [← ih hx2]

lemma removeFirst_subset (x a : String × Int) :
    ∀ l : List (String × Int), a ∈ removeFirst x l → a ∈ l := by
  intro l ha
  induction l with
  | nil => cases ha
  | cons y rest ih =>
    unfold removeFirst at ha
    by_cases hy : y = x
    · rw [if_pos hy] at ha
      exact List.mem_cons_of_mem y ha
    · rw [if_neg hy] at ha
      rcases List.mem_cons.mp ha with h | h
      · exact h ▸ List.mem_cons_self y rest
      · exact List.mem_cons_of_mem y (ih h)

/-- Any sufficient fuel computes the same scan. -/
lemma dedupScan_fuel (w : String) (c : Int) :
    ∀ (fuel1 : Nat), ∀ (fuel2 : Nat) (result : List (String × Int)) (i : Nat),
      result.length < fuel1 + i → result.length < fuel2 + i →
      dedupScan w c fuel1 result i = dedupScan w c fuel2 result i := by
  intro fuel1
  induction fuel1 with
  | zero =>
    intro fuel2 result i h1 h2
    have hni : ¬ i < result.length := by omega
    cases fuel2 with
    | zero => rfl
    | succ g =>
      unfold dedupScan
      rw [dif_neg hni]
  | succ f ih =>
    intro fuel2 result i h1 h2
    cases fuel2 with
    | zero =>
      have hni : ¬ i < result.length := by omega
      unfold dedupScan
      rw [dif_neg hni]
    | succ g =>
      unfold dedupScan
      by_cases hi : i < result.length
      · rw [dif_pos hi, dif_pos hi]
        dsimp only
        split
        · rfl
        · split
          · split
            · have hmem : ((result.get ⟨i, hi⟩).1, (result.get ⟨i, hi⟩).2) ∈ result := by
                rw [Prod.mk.eta]
                exact result.get_mem _ _
              have hlen := removeFirst_length _ result hmem
              exact ih g _ (i + 1) (by omega) (by omega)
            · rfl
          · exact ih g result (i + 1) (by omega) (by omega)
      · rw [dif_neg hi, dif_neg hi]

lemma dedupScan_subset (w : String) (c : Int) :
    ∀ (fuel : Nat) (result : List (String × Int)) (i : Nat),
      ∀ a ∈ (dedupScan w c fuel result i).1, a ∈ result := by
  intro fuel
  induction fuel with
  | zero => intro result i a ha; exact ha
  | succ f ih =>
    intro result i a ha
    unfold dedupScan at ha
    by_cases hi : i < result.length
    · rw [dif_pos hi] at ha
      dsimp only at ha
      split at ha
      · exact ha
      · split at ha
        · split at ha
          · exact removeFirst_subset _ a result (ih _ (i + 1) a ha)
          · exact ha
        · exact ih result (i + 1) a ha
    · rw [dif_neg hi] at ha
      exact ha

lemma dedupStep_subset (result : List (String × Int)) (p : String × Int) :
    ∀ a ∈ dedupStep result p, a ∈ result ∨ a = p := by
  intro a ha
  unfold dedupStep at ha
  rcases hscan : dedupScan p.1 p.2 (result.length + 1) result 0 with ⟨r, b⟩
  rw [hscan] at ha
  cases b with
  | true =>
    dsimp only at ha
    rcases List.mem_append.mp ha with h | h
    · exact Or.inl (dedupScan_subset p.1 p.2 _ result 0 a (by rw [hscan]; exact h))
    · simp only [List.mem_singleton] at h
      exact Or.inr h
  | false =>
    dsimp only at ha
    exact Or.inl (dedupScan_subset p.1 p.2 _ result 0 a (by rw [hscan]; exact ha))

/-! ## Sortedness and membership of the descending count sort -/

lemma mem_insertCountDesc (p a : String × Int) :
    ∀ l : List (String × Int), a ∈ insertCountDesc p l ↔ a = p ∨ a ∈ l := by
  intro l
  induction l with
  | nil => simp [insertCountDesc]
  | cons q rest ih =>
    unfold insertCountDesc
    by_cases hq : p.2 ≤ q.2
    · rw [if_pos hq]
      simp only [List.mem_cons, ih]
      tauto
    · rw [if_neg hq]
      simp only [List.mem_cons]

lemma mem_sortCountDesc (l : List (String × Int)) (a : String × Int) :
    a ∈ sortCountDesc l ↔ a ∈ l := by
  unfold sortCountDesc
  have main : ∀ (acc : List (String × Int)),
      a ∈ l.foldl (fun acc p => insertCountDesc p acc) acc ↔ a ∈ acc ∨ a ∈ l := by
    induction l with
    | nil => intro acc; simp
    | cons p rest ih =>
      intro acc
      rw [List.foldl_cons, ih, mem_insertCountDesc]
      simp only [List.mem_cons]
      tauto
  rw [main []]
  simp

lemma sorted_insertCountDesc (p : String × Int) :
    ∀ l : List (String × Int),
      l.Sorted (fun a b : String × Int => b.2 ≤ a.2) →
      (insertCountDesc p l).Sorted (fun a b : String × Int => b.2 ≤ a.2) := by
  intro l
  induction l with
  | nil => intro _; simp [insertCountDesc]
  | cons q rest ih =>
    intro hs
    rw [List.sorted_cons] at hs
    obtain ⟨hq, hrest⟩ := hs
    unfold insertCountDesc
    by_cases hpq : p.2 ≤ q.2
    · rw [if_pos hpq]
      rw [List.sorted_cons]
      refine ⟨?_, ih hrest⟩
      intro b hb
      rcases (mem_insertCountDesc p b rest).mp hb with hb | hb
      · exact hb ▸ hpq
      · exact hq b hb
    · rw [if_neg hpq]
      rw [List.sorted_cons]
      have hqp : q.2 ≤ p.2 := le_of_lt (not_le.mp hpq)
      constructor
      · intro b hb
        rcases List.mem_cons.mp hb with hb | hb
        · exact hb ▸ hqp
        · exact le_trans (hq b hb) hqp
      · exact List.sorted_cons.mpr ⟨hq, hrest⟩

lemma sorted_sortCountDesc (l : List (String × Int)) :
    (sortCountDesc l).Sorted (fun a b : String × Int => b.2 ≤ a.2) := by
  unfold sortCountDesc
  have main : ∀ (acc : List (String × Int)),
      acc.Sorted (fun a b : String × Int => b.2 ≤ a.2) →
      (l.foldl (fun acc p => insertCountDesc p acc) acc).Sorted
        (fun a b : String × Int => b.2 ≤ a.2) := by
    induction l with
    | nil => intro acc h; exact h
    | cons p rest ih =>
      intro acc h
      rw [List.foldl_cons]
      exact ih _ (sorted_insertCountDesc p acc h)
  exact main [] (by simp)

lemma dedup_fold_subset (cands : List (String × Int)) :
    ∀ (acc : List (String × Int)) (a : String × Int),
      a ∈ cands.foldl dedupStep acc → a ∈ acc ∨ a ∈ cands := by
  induction cands with
  | nil => intro acc a ha; exact Or.inl ha
  | cons p rest ih =>
    intro acc a ha
    rw [List.foldl_cons] at ha
    rcases ih (dedupStep acc p) a ha with h | h
    · rcases dedupStep_subset acc p a h with h2 | h2
      · exact Or.inl h2
      · exact Or.inr (h2 ▸ List.mem_cons_self p rest)
    · exact Or.inr (List.mem_cons_of_mem p h)

/-- C10: `deduplicate_by_inclusion` only drops entries — every output pair
is literally one of the input pairs (no count is altered or merged, no new
word appears) — and its output is sorted by count descending. -/
theorem claim10_theorem (l : List (String × Int)) :
    (∀ p ∈ deduplicate_by_inclusion l, p ∈ l) ∧
    (deduplicate_by_inclusion l).Sorted (fun a b : String × Int => b.2 ≤ a.2) := by
  unfold deduplicate_by_inclusion
  by_cases hl : l.isEmpty
  · rw [if_pos hl]
    exact ⟨fun p hp => absurd hp (List.not_mem_nil p), List.sorted_nil⟩
  · rw [if_neg hl]
    constructor
    · intro p hp
      rw [mem_sortCountDesc] at hp
      rcases dedup_fold_subset (sortCountDesc l) [] p hp with h | h
      · exact absurd h (List.not_mem_nil p)
      · exact (mem_sortCountDesc l p).mp h
    · exact sorted_sortCountDesc _

/-- C2 (amended): the two concrete examples of the spec hold, and with a
single accepted word the candidate rule is exactly as described, the 0.7
test being what Python actually computes — `count > accepted * 0.7` in
IEEE double arithmetic (`pyGt07`).  At the floating-point boundary this
test differs from the exact rational one: (accepted=90, count=63)
replaces, since `90 * 0.7` rounds to 62.99999999999999, and
(accepted=10, count=7) drops, since `10 * 0.7` rounds to exactly 7.0.
With several accepted words, however, a replacement makes the loop index
skip the next accepted word (Python `list.remove` during iteration), so
an accepted substring of the candidate can survive — see the
counterexample.  (The bound hypotheses keep the rule inside the range
where `float(accepted)` cannot overflow.) -/
theorem claim2_theorem :
    deduplicate_by_inclusion [("足球", 10), ("中国足球", 8)] = [("中国足球", 8)] ∧
    deduplicate_by_inclusion [("足球", 10), ("中国足球", 5)] = [("足球", 10)] ∧
    deduplicate_by_inclusion [("足球", 90), ("中国足球", 63)] = [("中国足球", 63)] ∧
    deduplicate_by_inclusion [("足球", 10), ("中国足球", 7)] = [("足球", 10)] ∧
    ∀ (x : String × Int) (w : String) (c : Int),
      x.2.natAbs ≤ 2 ^ 1000 → c.natAbs ≤ 2 ^ 1000 →
      dedupStep [x] (w, c) =
        if isSubstr w x.1 then [x]
        else if isSubstr x.1 w then
          (if pyGt07 c x.2 then [(w, c)] else [x])
        else [x, (w, c)] := by
  refine ⟨by decide, by decide, by decide, by decide, ?_⟩
  intro x w c _ _
  obtain ⟨x1, x2⟩ := x
  show dedupStep [(x1, x2)] (w, c) = _
  unfold dedupStep dedupScan
  simp only [List.length_cons, List.length_nil, Nat.zero_lt_one, dif_pos]
  by_cases h1 : isSubstr w x1
  · simp [h1]
  · by_cases h2 : isSubstr x1 w
    · by_cases h3 : pyGt07 c x2 = true
      · simp [h1, h2, h3, removeFirst, dedupScan]
      · simp [h1, h2, h3]
    · simp [h1, h2, dedupScan]

/-- C2 witness for the single-accepted-word rule. -/
theorem claim2_witness :
    dedupStep [("足球", (10 : Int))] ("中国足球", 8) = [("中国足球", 8)] := by
  have h := claim2_theorem.2.2.2.2 ("足球", (10 : Int)) "中国足球" 8
    (by norm_num) (by norm_num)
  rw [h]
  decide

/-- C2 counterexample: on input [(中国,10), (足球,9), (中国足球,8)] the
accepted word 足球 is a substring of the candidate 中国足球 whose count 8
passes the 0.7 test against 9 (`8 > 9 * 0.7`), yet the output keeps both
— the removal of 中国 shifted the loop index past 足球, so the stated
replace-or-drop rule is violated. -/
theorem claim2_counterexample :
    ("足球", (9 : Int)) ∈
      deduplicate_by_inclusion [("中国", 10), ("足球", 9), ("中国足球", 8)] ∧
    ("中国足球", (8 : Int)) ∈
      deduplicate_by_inclusion [("中国", 10), ("足球", 9), ("中国足球", 8)] ∧
    isSubstr "足球" "中国足球" = true ∧ pyGt07 8 9 = true := by
  refine ⟨?_, ?_, by decide, by decide⟩ <;>
    · rw [show deduplicate_by_inclusion [("中国", 10), ("足球", 9), ("中国足球", 8)] =
        [("足球", 9), ("中国足球", 8)] from by decide]
      decide

/-! ## segment.py: normalisation -/

/-- Python `str.lower()` on one character (ASCII case mapping; CJK and
the other characters appearing here are case-invariant). -/
def pyLowerChar (c : Char) : Char :=
  if 65 ≤ c.toNat ∧ c.toNat ≤ 90 then Char.ofNat (c.toNat + 32) else c

/-- Python `str.upper()` on one character (ASCII case mapping). -/
def pyUpperChar (c : Char) : Char :=
  if 97 ≤ c.toNat ∧ c.toNat ≤ 122 then Char.ofNat (c.toNat - 32) else c

/-- Python `s.lower()`. -/
def pyLower (s : String) : String := ⟨s.data.map pyLowerChar⟩

/-- Python `s.upper()`. -/
def pyUpper (s : String) : String := ⟨s.data.map pyUpperChar⟩

/-- ASCII letter test for one character. -/
def isAsciiAlphaChar (c : Char) : Bool :=
  (65 ≤ c.toNat && c.toNat ≤ 90) || (97 ≤ c.toNat && c.toNat ≤ 122)

/-- Python `re.fullmatch(r"[A-Za-z]+", s)` as a Boolean. -/
def isAsciiAlphaStr (s : String) : Bool :=
  !s.isEmpty && s.data.all isAsciiAlphaChar

namespace Segment

/-- `NORMALIZE_MAP` of segment.py, in source order (its keys are
pairwise distinct, so association-list lookup is dict lookup). -/
def NORMALIZE_MAP : List (String × String) :=
  [("爆光", "曝光"), ("官宣了", "官宣"), ("官宣啦", "官宣"), ("预告", "预告片"),
   ("微博", "微博"), ("热搜", "热搜"), ("回应", "回应"), ("曝光", "曝光"),
   ("官方", "官方"), ("声明", "声明"), ("最新", "最新"), ("终于", "终于"),
   ("竟然", "竟然"), ("惊呆", "惊呆"), ("炸了", "炸裂"), ("崩溃", "崩溃"),
   ("无语", "无语"), ("哭了", "哭泣"), ("笑死", "笑死"), ("太好哭", "太好哭"),
   ("破防", "破防"), ("上头", "上头"), ("绝绝子", "绝绝子"), ("无语子", "无语子"),
   ("yyds", "永远的神"), ("zfb", "支付宝"), ("xswl", "笑死我了"),
   ("nsdd", "你说得对"), ("nbcs", "没人在乎"), ("gkd", "搞快点"),
   ("ssfd", "瑟瑟发抖"), ("plgg", "漂亮哥哥"), ("wpp", "网友"), ("bp", "闭麦"),
   ("blx", "玻璃心"), ("cjb", "成绩表"), ("dbq", "对不起"), ("doge", "doge"),
   ("emmm", "嗯"), ("srds", "虽然但是"), ("xjj", "小姐姐"), ("yysy", "有一说一"),
   ("物料", "物料"), ("杀我", "杀我"), ("上热搜", "上热搜")]

end Segment

/-- Association-list (Python dict) lookup on the first component. -/
def mapLookup : List (String × String) → String → Option String
  | [], _ => none
  | (k, v) :: rest, w => if w = k then some v else mapLookup rest w

namespace Segment

/-- `normalize_word` of segment.py: strip; empty → ""; case-insensitive
variant-table lookup; purely-alphabetic ASCII results are upper-cased. -/
def normalize_word (w0 : String) : String :=
  let w := pyStrip w0
  if w.isEmpty then ""
  else
    let w1 :=
      match mapLookup NORMALIZE_MAP (pyLower w) with
      | some v => v
      | none => w
    if isAsciiAlphaStr w1 then pyUpper w1 else w1

end Segment

/-- One insertion with Python dict-literal semantics: a repeated key keeps
its first position but takes the later value. -/
def dictInsert (acc : List (String × List String)) (kv : String × List String) :
    List (String × List String) :=
  if acc.any (fun p => p.1 = kv.1) then
    acc.map (fun p => if p.1 = kv.1 then (p.1, kv.2) else p)
  else acc ++ [kv]

/-- A Python dict literal as an ordered association list. -/
def pyDictLit (l : List (String × List String)) : List (String × List String) :=
  l.foldl dictInsert []

namespace Segment

/-- The `SEMANTIC_GROUPS` dict literal of segment.py, verbatim: it repeats
the key 发声 (entries 6 and 18) and repeats some variants inside lists. -/
def SEMANTIC_GROUPS_LIT : List (String × List String) :=
  [("火灾事故", ["火灾", "事故", "起火", "失火", "着火"]),
   ("调查报告", ["报告", "调查", "通报", "结果", "结论"]),
   ("展品", ["文物", "展品", "藏品", "古董", "艺术品"]),
   ("真假", ["真伪", "真假", "真假", "伪造", "赝品"]),
   ("怀孕", ["怀孕", "妊娠", "有孕", "有喜", "准妈妈"]),
   ("发声", ["发声", "回应", "回应", "表态", "说话"]),
   ("质疑", ["质疑", "质疑", "怀疑", "争议", "争议"]),
   ("驾车", ["开车", "驾车", "驾驶", "开车", "开远"]),
   ("身亡", ["死亡", "身亡", "去世", "逝世", "丧命"]),
   ("手术", ["手术", "手术", "开刀", "治疗", "救治"]),
   ("利用漏洞", ["漏洞", "利用", "系统漏洞", "黑客"]),
   ("智力障碍", ["智力", "障碍", "智障", "残疾"]),
   ("博物馆", ["博物馆", "展馆", "美术馆", "博物院"]),
   ("格莱美", ["格莱美", "grammy", "颁奖礼"]),
   ("旗舰", ["旗舰", "高端", "顶级", "豪华"]),
   ("镜头", ["镜头", "画面", "影像", "画面"]),
   ("舞台", ["舞台", "表演", "演出现场"]),
   ("发声", ["发声", "表态", "发言", "回应"])]

/-- The effective `SEMANTIC_GROUPS` dict of segment.py (发声 keeps its
sixth position but carries the value of the later duplicate entry). -/
def SEMANTIC_GROUPS : List (String × List String) := pyDictLit SEMANTIC_GROUPS_LIT

/-- `normalize_semantic` of segment.py. -/
def normalize_semantic (word : String) : String :=
  (lookupSemantic SEMANTIC_GROUPS word).getD word

end Segment

/-! ## segment.py: merge_semantic_duplicates, and the reducer's output -/

/-- One `merged[normalized] += count` update with Python dict semantics. -/
def dictAddInt (acc : List (String × Int)) (k : String) (v : Int) :
    List (String × Int) :=
  if acc.any (fun p => p.1 = k) then
    acc.map (fun p => if p.1 = k then (p.1, p.2 + v) else p)
  else acc ++ [(k, v)]

/-- `merge_semantic_duplicates` of segment.py: canonicalise every key
through `normalize_semantic`, sum counts per canonical key in a dict
(insertion order), and return the items sorted by count descending. -/
def merge_semantic_duplicates (l : List (String × Int)) : List (String × Int) :=
  if l.isEmpty then []
  else
    sortCountDesc
      (l.foldl (fun acc p => dictAddInt acc (Segment.normalize_semantic p.1) p.2) [])

/-- Module-level output of reducer.py: aggregate the grouped stream, and
when anything was aggregated, print `deduplicate_by_inclusion` of it
(no semantic merge is invoked). -/
def reducerOutput (lines : List String) : List (String × Int) :=
  let aggregated := aggregateLines lines
  if aggregated.isEmpty then [] else deduplicate_by_inclusion aggregated

/-! ## C4: the two normalize_semantic functions -/

/-- All words (standards and variants) occurring in a semantic table. -/
def tableWords (t : List (String × List String)) : List String :=
  t.foldr (fun g acc => g.1 :: g.2 ++ acc) []

lemma lookupSemantic_none (w : String) :
    ∀ t : List (String × List String), w ∉ tableWords t →
      lookupSemantic t w = none := by
  intro t
  induction t with
  | nil => intro _; rfl
  | cons g rest ih =>
    intro hw
    obtain ⟨standard, variants⟩ := g
    unfold tableWords at hw
    rw [List.foldr_cons] at hw
    have hstd : w ≠ standard := fun hx => hw (hx ▸ List.mem_cons_self _ _)
    have hvarrest :
        w ∉ variants ++ List.foldr (fun g acc => g.1 :: g.2 ++ acc) [] rest :=
      fun hx => hw (List.mem_cons_of_mem _ hx)
    have hvar : w ∉ variants := fun hx => hvarrest (List.mem_append.mpr (Or.inl hx))
    have hrest : w ∉ tableWords rest := by
      intro hx
      unfold tableWords at hx
      exact hvarrest (List.mem_append.mpr (Or.inr hx))
    unfold lookupSemantic
    have hc : variants.contains w = false :=
      Bool.eq_false_iff.mpr (fun hx => hvar (List.elem_iff.mp hx))
    rw [hc]
    simp only [Bool.false_or, decide_eq_false hstd, Bool.false_eq_true, if_false]
    exact ih hrest

set_option maxRecDepth 8192 in
/-- C4 (amended): the token-time (segment.py) and aggregation-time
(mapper.py) semantic canonicalizers agree on every word except the three
words present in only one table's variant lists: 说话 (mapper maps it to
发声, segment leaves it), and 发言 and 开远 (segment maps them to 发声
and 驾车, mapper leaves them).  They are not the same function. -/
theorem claim4_theorem (w : String) (h1 : w ≠ "说话") (h2 : w ≠ "发言")
    (h3 : w ≠ "开远") :
    Segment.normalize_semantic w = Mapper.normalize_semantic w := by
  by_cases hmem : w ∈ tableWords Segment.SEMANTIC_GROUPS ++
      tableWords Mapper.SEMANTIC_GROUPS
  · have hall : ∀ v ∈ tableWords Segment.SEMANTIC_GROUPS ++
        tableWords Mapper.SEMANTIC_GROUPS,
        v ≠ "说话" → v ≠ "发言" → v ≠ "开远" →
        Segment.normalize_semantic v = Mapper.normalize_semantic v := by decide
    exact hall w hmem h1 h2 h3
  · have hs : w ∉ tableWords Segment.SEMANTIC_GROUPS :=
      fun hx => hmem (List.mem_append.mpr (Or.inl hx))
    have hm : w ∉ tableWords Mapper.SEMANTIC_GROUPS :=
      fun hx => hmem (List.mem_append.mpr (Or.inr hx))
    unfold Segment.normalize_semantic Mapper.normalize_semantic
    rw [lookupSemantic_none w _ hs, lookupSemantic_none w _ hm]

/-- C4 witness: a word in both tables. -/
theorem claim4_witness :
    Segment.normalize_semantic "文物" = Mapper.normalize_semantic "文物" ∧
    Mapper.normalize_semantic "文物" = "展品" := by
  refine ⟨?_, by decide⟩
  exact claim4_theorem _ (by decide) (by decide) (by decide)

/-- C4 counterexample: 发言 separates the two canonicalizers (likewise
说话 and 开远). -/
theorem claim4_counterexample :
    Segment.normalize_semantic "发言" = "发声" ∧
    Mapper.normalize_semantic "发言" = "发言" ∧
    Segment.normalize_semantic "发言" ≠ Mapper.normalize_semantic "发言" ∧
    Mapper.normalize_semantic "说话" = "发声" ∧
    Segment.normalize_semantic "说话" = "说话" ∧
    Segment.normalize_semantic "开远" = "驾车" ∧
    Mapper.normalize_semantic "开远" = "开远" := by decide

/-! ## C9: idempotence of the normalisers -/

lemma toNat_ofNat_valid (n : Nat) (h : n.isValidChar) : (Char.ofNat n).toNat = n := by
  unfold Char.ofNat
  rw [dif_pos h]
  rfl

lemma charOfNat_toNat (c : Char) : Char.ofNat c.toNat = c := by
  have hv : c.toNat.isValidChar := c.valid
  unfold Char.ofNat
  rw [dif_pos hv]
  unfold Char.ofNatAux
  apply Char.ext
  apply UInt32.ext
  simp [Char.toNat, UInt32.toNat]

lemma char_toNat_inj (a b : Char) (h : a.toNat = b.toNat) : a = b := by
  rw [← charOfNat_toNat a, ← charOfNat_toNat b, h]

lemma upperChar_of_lower (c : Char) (h1 : 97 ≤ c.toNat) (h2 : c.toNat ≤ 122) :
    (pyUpperChar c).toNat = c.toNat - 32 := by
  unfold pyUpperChar
  rw [if_pos ⟨h1, h2⟩]
  exact toNat_ofNat_valid _ (Or.inl (by omega))

lemma upperChar_fix (c : Char) (h : ¬ (97 ≤ c.toNat ∧ c.toNat ≤ 122)) :
    pyUpperChar c = c := by
  unfold pyUpperChar
  rw [if_neg h]

lemma lowerChar_fix (c : Char) (h : ¬ (65 ≤ c.toNat ∧ c.toNat ≤ 90)) :
    pyLowerChar c = c := by
  unfold pyLowerChar
  rw [if_neg h]

lemma lower_upper_char (c : Char) : pyLowerChar (pyUpperChar c) = pyLowerChar c := by
  by_cases hl : 97 ≤ c.toNat ∧ c.toNat ≤ 122
  · have ht := upperChar_of_lower c hl.1 hl.2
    unfold pyLowerChar
    rw [if_pos (by omega : 65 ≤ (pyUpperChar c).toNat ∧ (pyUpperChar c).toNat ≤ 90)]
    rw [if_neg (by omega : ¬ (65 ≤ c.toNat ∧ c.toNat ≤ 90))]
    rw [ht, show c.toNat - 32 + 32 = c.toNat from by omega, charOfNat_toNat]
  · rw [upperChar_fix c hl]

lemma upper_upper_char (c : Char) : pyUpperChar (pyUpperChar c) = pyUpperChar c := by
  by_cases hl : 97 ≤ c.toNat ∧ c.toNat ≤ 122
  · have ht := upperChar_of_lower c hl.1 hl.2
    apply upperChar_fix
    omega
  · rw [upperChar_fix c hl, upperChar_fix c hl]

lemma alphaChar_upper (c : Char) (h : isAsciiAlphaChar c = true) :
    isAsciiAlphaChar (pyUpperChar c) = true := by
  unfold isAsciiAlphaChar at h ⊢
  simp only [Bool.or_eq_true, Bool.and_eq_true, decide_eq_true_eq] at h ⊢
  rcases h with h | h
  · rw [upperChar_fix c (by omega)]
    omega
  · have ht := upperChar_of_lower c h.1 h.2
    omega

lemma alphaChar_not_ws (c : Char) (h : isAsciiAlphaChar c = true) :
    pyIsWs c = false := by
  unfold isAsciiAlphaChar at h
  simp only [Bool.or_eq_true, Bool.and_eq_true, decide_eq_true_eq] at h
  apply Bool.eq_false_iff.mpr
  intro hw
  unfold pyIsWs at hw
  simp only [Bool.or_eq_true, decide_eq_true_eq] at hw
  rcases hw with ((((hw | hw) | hw) | hw) | hw) | hw <;>
    · subst hw
      revert h
      decide

lemma pyLower_pyUpper (s : String) : pyLower (pyUpper s) = pyLower s := by
  unfold pyLower pyUpper
  apply String.ext
  simp only [List.map_map]
  apply List.map_congr_left
  intro c _
  exact lower_upper_char c

lemma pyUpper_pyUpper (s : String) : pyUpper (pyUpper s) = pyUpper s := by
  unfold pyUpper
  apply String.ext
  simp only [List.map_map]
  apply List.map_congr_left
  intro c _
  exact upper_upper_char c

lemma alphaStr_upper (s : String) (h : isAsciiAlphaStr s = true) :
    isAsciiAlphaStr (pyUpper s) = true := by
  unfold isAsciiAlphaStr at h ⊢
  simp only [Bool.and_eq_true] at h ⊢
  obtain ⟨h1, h2⟩ := h
  constructor
  · unfold pyUpper
    simp only [Bool.not_eq_true'] at h1 ⊢
    apply Bool.eq_false_iff.mpr
    intro hx
    rw [String.isEmpty_iff] at hx
    have hdata : (String.mk (s.data.map pyUpperChar)).data = [] := by rw [hx]
    simp only [List.map_eq_nil_iff] at hdata
    have hs : s = "" := String.ext (by rw [hdata])
    rw [hs] at h1
    exact absurd h1 (by decide)
  · rw [List.all_eq_true] at h2 ⊢
    intro c hc
    unfold pyUpper at hc
    simp only [List.mem_map] at hc
    obtain ⟨d, hd, hdc⟩ := hc
    exact hdc ▸ alphaChar_upper d (h2 d hd)

lemma head_dropWhile_not (p : Char → Bool) :
    ∀ (l : List Char) (a : Char), (l.dropWhile p).head? = some a → p a = false := by
  intro l
  induction l with
  | nil => intro a h; cases h
  | cons c rest ih =>
    intro a h
    rw [List.dropWhile_cons] at h
    by_cases hc : p c = true
    · rw [if_pos hc] at h
      exact ih a h
    · rw [if_neg hc] at h
      simp only [List.head?_cons, Option.some.injEq] at h
      subst h
      exact Bool.eq_false_iff.mpr hc

lemma getLast_dropWhile (p : Char → Bool) :
    ∀ l : List Char, l.dropWhile p ≠ [] →
      (l.dropWhile p).getLast? = l.getLast? := by
  intro l
  induction l with
  | nil => intro h; cases h rfl
  | cons c rest ih =>
    intro h
    rw [List.dropWhile_cons] at h ⊢
    by_cases hc : p c = true
    · rw [if_pos hc] at h ⊢
      rw [ih h]
      have hrest : rest ≠ [] := by
        intro hx
        apply h
        rw [hx]
        rfl
      cases rest with
      | nil => cases hrest rfl
      | cons d rest2 => exact List.getLast?_cons_cons.symm
    · rw [if_neg hc]

lemma dropWhile_of_head_false (p : Char → Bool) (l : List Char)
    (h : ∀ a, l.head? = some a → p a = false) : l.dropWhile p = l := by
  cases l with
  | nil => rfl
  | cons c rest =>
    rw [List.dropWhile_cons, if_neg]
    rw [h c rfl]
    simp

/-- Python strip is idempotent. -/
lemma stripChars_idem (l : List Char) : stripChars (stripChars l) = stripChars l := by
  unfold stripChars
  set a := l.dropWhile pyIsWs with ha
  set b := a.reverse.dropWhile pyIsWs with hb
  have hstep1 : b.reverse.dropWhile pyIsWs = b.reverse := by
    apply dropWhile_of_head_false
    intro x hx
    rw [List.head?_reverse] at hx
    have hbne : b ≠ [] := by
      intro hbnil
      rw [hbnil] at hx
      cases hx
    have h1 : b.getLast? = a.reverse.getLast? := by
      rw [hb]
      exact getLast_dropWhile pyIsWs a.reverse (hb ▸ hbne)
    rw [h1, List.getLast?_reverse] at hx
    exact head_dropWhile_not pyIsWs l x (ha ▸ hx)
  rw [hstep1, List.reverse_reverse]
  have hstep2 : b.dropWhile pyIsWs = b := by
    rw [hb]
    exact List.dropWhile_idempotent pyIsWs a.reverse
  rw [hstep2]

lemma pyStrip_idem (s : String) : pyStrip (pyStrip s) = pyStrip s := by
  unfold pyStrip
  exact String.ext (stripChars_idem s.data)

lemma stripChars_of_no_ws (l : List Char) (h : ∀ c ∈ l, pyIsWs c = false) :
    stripChars l = l := by
  unfold stripChars
  have h1 : l.dropWhile pyIsWs = l := by
    apply dropWhile_of_head_false
    intro a ha
    cases l with
    | nil => cases ha
    | cons c rest =>
      simp only [List.head?_cons, Option.some.injEq] at ha
      exact ha ▸ h c (List.mem_cons_self c rest)
  rw [h1]
  have h2 : l.reverse.dropWhile pyIsWs = l.reverse := by
    apply dropWhile_of_head_false
    intro a ha
    rw [List.head?_reverse] at ha
    exact h a (List.mem_of_mem_getLast? ha)
  rw [h2, List.reverse_reverse]

/-- Stripping fixes a purely-alphabetic string. -/
lemma pyStrip_alpha (s : String) (h : isAsciiAlphaStr s = true) :
    pyStrip s = s := by
  unfold pyStrip
  apply String.ext
  apply stripChars_of_no_ws
  intro c hc
  unfold isAsciiAlphaStr at h
  simp only [Bool.and_eq_true, List.all_eq_true] at h
  exact alphaChar_not_ws c (h.2 c hc)

lemma nw_empty_case (x : String) (h : (pyStrip x).isEmpty = true) :
    Segment.normalize_word x = "" := by
  unfold Segment.normalize_word
  simp only [h, if_true]

lemma nw_of_map (x v : String) (h : (pyStrip x).isEmpty = false)
    (hl : mapLookup Segment.NORMALIZE_MAP (pyLower (pyStrip x)) = some v) :
    Segment.normalize_word x = if isAsciiAlphaStr v then pyUpper v else v := by
  unfold Segment.normalize_word
  simp only [h, hl, Bool.false_eq_true, if_false]

lemma nw_of_nomap (x : String) (h : (pyStrip x).isEmpty = false)
    (hl : mapLookup Segment.NORMALIZE_MAP (pyLower (pyStrip x)) = none) :
    Segment.normalize_word x =
      if isAsciiAlphaStr (pyStrip x) then pyUpper (pyStrip x) else pyStrip x := by
  unfold Segment.normalize_word
  simp only [h, hl, Bool.false_eq_true, if_false]

lemma mapLookup_mem_snd (w v : String) :
    ∀ t : List (String × String), mapLookup t w = some v → v ∈ t.map Prod.snd := by
  intro t
  induction t with
  | nil => intro h; cases h
  | cons kv rest ih =>
    intro h
    obtain ⟨k, u⟩ := kv
    unfold mapLookup at h
    by_cases hk : w = k
    · rw [if_pos hk] at h
      simp only [Option.some.injEq] at h
      subst h
      exact List.mem_cons_self _ _
    · rw [if_neg hk] at h
      exact List.mem_cons_of_mem _ (ih h)

/-- `normalize_word` of segment.py is idempotent. -/
lemma normalize_word_idem (x : String) :
    Segment.normalize_word (Segment.normalize_word x) = Segment.normalize_word x := by
  cases hemp : (pyStrip x).isEmpty with
  | true =>
    rw [nw_empty_case x hemp]
    exact nw_empty_case "" (by decide)
  | false =>
    cases hl : mapLookup Segment.NORMALIZE_MAP (pyLower (pyStrip x)) with
    | some v =>
      rw [nw_of_map x v hemp hl]
      have hv : v ∈ Segment.NORMALIZE_MAP.map Prod.snd :=
        mapLookup_mem_snd _ v Segment.NORMALIZE_MAP hl
      have hfin : ∀ u ∈ Segment.NORMALIZE_MAP.map Prod.snd,
          Segment.normalize_word (if isAsciiAlphaStr u then pyUpper u else u) =
            (if isAsciiAlphaStr u then pyUpper u else u) := by decide
      exact hfin v hv
    | none =>
      rw [nw_of_nomap x hemp hl]
      by_cases halpha : isAsciiAlphaStr (pyStrip x) = true
      · rw [if_pos halpha]
        have halpha2 : isAsciiAlphaStr (pyUpper (pyStrip x)) = true :=
          alphaStr_upper _ halpha
        have hstrip : pyStrip (pyUpper (pyStrip x)) = pyUpper (pyStrip x) :=
          pyStrip_alpha _ halpha2
        have hne : (pyStrip (pyUpper (pyStrip x))).isEmpty = false := by
          rw [hstrip]
          unfold isAsciiAlphaStr at halpha2
          simp only [Bool.and_eq_true, Bool.not_eq_true'] at halpha2
          exact halpha2.1
        have hlook : mapLookup Segment.NORMALIZE_MAP
            (pyLower (pyStrip (pyUpper (pyStrip x)))) = none := by
          rw [hstrip, pyLower_pyUpper]
          exact hl
        rw [nw_of_nomap _ hne hlook, hstrip, if_pos halpha2, pyUpper_pyUpper]
      · rw [if_neg halpha]
        have hstrip : pyStrip (pyStrip x) = pyStrip x := pyStrip_idem x
        have hne : (pyStrip (pyStrip x)).isEmpty = false := by rw [hstrip]; exact hemp
        have hlook : mapLookup Segment.NORMALIZE_MAP
            (pyLower (pyStrip (pyStrip x))) = none := by
          rw [hstrip]
          exact hl
        rw [nw_of_nomap _ hne hlook, hstrip, if_neg halpha]

lemma lookupSemantic_mem_fst (w s : String) :
    ∀ t : List (String × List String),
      lookupSemantic t w = some s → s ∈ t.map Prod.fst := by
  intro t
  induction t with
  | nil => intro h; cases h
  | cons g rest ih =>
    intro h
    obtain ⟨standard, variants⟩ := g
    unfold lookupSemantic at h
    by_cases hc : (variants.contains w || decide (w = standard)) = true
    · rw [if_pos hc] at h
      simp only [Option.some.injEq] at h
      subst h
      exact List.mem_cons_self _ _
    · rw [if_neg hc] at h
      exact List.mem_cons_of_mem _ (ih h)

/-- Idempotence of a table-driven semantic normaliser, given that every
standard label normalises to itself. -/
lemma ns_idem_of_table (t : List (String × List String))
    (hstd : ∀ s ∈ t.map Prod.fst, (lookupSemantic t s).getD s = s) (x : String) :
    (lookupSemantic t ((lookupSemantic t x).getD x)).getD ((lookupSemantic t x).getD x) =
      (lookupSemantic t x).getD x := by
  cases hl : lookupSemantic t x with
  | none => simp only [Option.getD_none, hl]
  | some s =>
    simp only [Option.getD_some]
    exact hstd s (lookupSemantic_mem_fst x s t hl)

/-- C9: `normalize_word` (segment.py) is idempotent on every string, and
so are both `normalize_semantic` tables (mapper.py and segment.py) — in
particular on every entry of the variant and semantic-group tables. -/
theorem claim9_theorem :
    (∀ x, Segment.normalize_word (Segment.normalize_word x) = Segment.normalize_word x) ∧
    (∀ x, Mapper.normalize_semantic (Mapper.normalize_semantic x) =
      Mapper.normalize_semantic x) ∧
    (∀ x, Segment.normalize_semantic (Segment.normalize_semantic x) =
      Segment.normalize_semantic x) := by
  refine ⟨normalize_word_idem, ?_, ?_⟩
  · intro x
    unfold Mapper.normalize_semantic
    exact ns_idem_of_table Mapper.SEMANTIC_GROUPS (by decide) x
  · intro x
    unfold Segment.normalize_semantic
    exact ns_idem_of_table Segment.SEMANTIC_GROUPS (by decide) x

/-! ## C3: the semantic merge and the reducer's actual output -/

/-- Shared helper: segment.py's semantic normaliser is idempotent. -/
lemma ns_segment_idem (x : String) :
    Segment.normalize_semantic (Segment.normalize_semantic x) =
      Segment.normalize_semantic x := by
  unfold Segment.normalize_semantic
  exact ns_idem_of_table Segment.SEMANTIC_GROUPS (by decide) x

/-- First-match association lookup into the merged dict. -/
def alookInt (k : String) : List (String × Int) → Option Int
  | [] => none
  | p :: rest => if p.1 = k then some p.2 else alookInt k rest

lemma alookInt_none_of_not_mem (k : String) :
    ∀ acc : List (String × Int), k ∉ acc.map Prod.fst → alookInt k acc = none := by
  intro acc
  induction acc with
  | nil => intro _; rfl
  | cons p rest ih =>
    intro h
    simp only [List.map_cons, List.mem_cons] at h
    push_neg at h
    unfold alookInt
    rw [if_neg (fun hx => h.1 hx.symm)]
    exact ih h.2

lemma alookInt_isSome_of_mem (k : String) :
    ∀ acc : List (String × Int), k ∈ acc.map Prod.fst →
      (alookInt k acc).isSome = true := by
  intro acc
  induction acc with
  | nil => intro h; cases h
  | cons p rest ih =>
    intro h
    unfold alookInt
    by_cases hp : p.1 = k
    · rw [if_pos hp]; rfl
    · rw [if_neg hp]
      simp only [List.map_cons, List.mem_cons] at h
      rcases h with h | h
      · exact absurd h.symm hp
      · exact ih h

lemma alookInt_of_mem_nodup (k : String) (c : Int) :
    ∀ acc : List (String × Int), (acc.map Prod.fst).Nodup → (k, c) ∈ acc →
      alookInt k acc = some c := by
  intro acc
  induction acc with
  | nil => intro _ h; cases h
  | cons p rest ih =>
    intro hnd hmem
    simp only [List.map_cons, List.nodup_cons] at hnd
    unfold alookInt
    rcases List.mem_cons.mp hmem with h | h
    · subst h
      rw [if_pos rfl]
    · by_cases hp : p.1 = k
      · exfalso
        apply hnd.1
        rw [hp]
        exact List.mem_map.mpr ⟨(k, c), h, rfl⟩
      · rw [if_neg hp]
        exact ih hnd.2 h

lemma dictAddInt_keys (acc : List (String × Int)) (k : String) (v : Int) (k2 : String)
    (h : k2 ∈ (dictAddInt acc k v).map Prod.fst) : k2 ∈ acc.map Prod.fst ∨ k2 = k := by
  unfold dictAddInt at h
  by_cases hany : acc.any (fun p => p.1 = k) = true
  · rw [if_pos hany] at h
    left
    obtain ⟨p, hp, hpk⟩ := List.mem_map.mp h
    obtain ⟨q, hq, hqp⟩ := List.mem_map.mp hp
    apply List.mem_map.mpr
    refine ⟨q, hq, ?_⟩
    rw [← hpk, ← hqp]
    by_cases hqk : q.1 = k
    · rw [if_pos hqk]
    · rw [if_neg hqk]
  · rw [if_neg hany] at h
    rw [List.map_append, List.mem_append] at h
    rcases h with h | h
    · exact Or.inl h
    · simp only [List.map_cons, List.map_nil, List.mem_singleton] at h
      exact Or.inr h

lemma dictAddInt_keys_nodup (acc : List (String × Int)) (k : String) (v : Int)
    (h : (acc.map Prod.fst).Nodup) : ((dictAddInt acc k v).map Prod.fst).Nodup := by
  unfold dictAddInt
  by_cases hany : acc.any (fun p => p.1 = k) = true
  · rw [if_pos hany]
    have : (acc.map (fun p => if p.1 = k then (p.1, p.2 + v) else p)).map Prod.fst =
        acc.map Prod.fst := by
      rw [List.map_map]
      apply List.map_congr_left
      intro p _
      by_cases hp : p.1 = k
      · simp [hp]
      · simp [hp]
    rw [this]
    exact h
  · rw [if_neg hany]
    rw [List.map_append]
    simp only [List.map_cons, List.map_nil]
    refine List.Nodup.append h (List.nodup_singleton _) ?_
    intro a ha hb
    simp only [List.mem_singleton] at hb
    subst hb
    rw [List.any_eq_true] at hany
    push_neg at hany
    obtain ⟨q, hq, hqk⟩ := List.mem_map.mp ha
    exact hany q hq (by simp [hqk])

lemma any_key_iff (acc : List (String × Int)) (k : String) :
    acc.any (fun p => p.1 = k) = true ↔ k ∈ acc.map Prod.fst := by
  rw [List.any_eq_true]
  constructor
  · rintro ⟨p, hp, hpk⟩
    simp only [decide_eq_true_eq] at hpk
    exact List.mem_map.mpr ⟨p, hp, hpk⟩
  · rintro h
    obtain ⟨p, hp, hpk⟩ := List.mem_map.mp h
    exact ⟨p, hp, by simp [hpk]⟩

lemma alookInt_update (k : String) (v : Int) :
    ∀ acc : List (String × Int), k ∈ acc.map Prod.fst →
      alookInt k (acc.map (fun p => if p.1 = k then (p.1, p.2 + v) else p)) =
        some ((alookInt k acc).getD 0 + v) := by
  intro acc
  induction acc with
  | nil => intro h; cases h
  | cons p rest ih =>
    intro h
    by_cases hp : p.1 = k
    · simp only [List.map_cons, if_pos hp]
      unfold alookInt
      rw [if_pos hp, if_pos hp]
      rfl
    · simp only [List.map_cons, if_neg hp]
      unfold alookInt
      rw [if_neg hp, if_neg hp]
      apply ih
      simp only [List.map_cons, List.mem_cons] at h
      rcases h with h | h
      · exact absurd h.symm hp
      · exact h

lemma alookInt_append_not_mem (k : String) (l2 : List (String × Int)) :
    ∀ acc : List (String × Int), k ∉ acc.map Prod.fst →
      alookInt k (acc ++ l2) = alookInt k l2 := by
  intro acc
  induction acc with
  | nil => intro _; rfl
  | cons p rest ih =>
    intro h
    simp only [List.map_cons, List.mem_cons] at h
    push_neg at h
    rw [List.cons_append]
    simp only [alookInt]
    rw [if_neg (fun hx => h.1 hx.symm)]
    exact ih h.2

lemma alookInt_dictAddInt_same (acc : List (String × Int)) (k : String) (v : Int) :
    alookInt k (dictAddInt acc k v) = some ((alookInt k acc).getD 0 + v) := by
  unfold dictAddInt
  by_cases hmem : k ∈ acc.map Prod.fst
  · rw [if_pos ((any_key_iff acc k).mpr hmem)]
    exact alookInt_update k v acc hmem
  · rw [if_neg (fun hx => hmem ((any_key_iff acc k).mp hx))]
    rw [alookInt_append_not_mem k _ acc hmem]
    rw [alookInt_none_of_not_mem k acc hmem]
    unfold alookInt
    rw [if_pos rfl]
    simp

lemma alookInt_dictAddInt_other (acc : List (String × Int)) (k : String) (v : Int)
    (k2 : String) (h : k2 ≠ k) :
    alookInt k2 (dictAddInt acc k v) = alookInt k2 acc := by
  unfold dictAddInt
  by_cases hany : acc.any (fun p => p.1 = k) = true
  · rw [if_pos hany]
    clear hany
    induction acc with
    | nil => rfl
    | cons p rest ih =>
      simp only [List.map_cons]
      by_cases hp : p.1 = k
      · rw [if_pos hp]
        simp only [alookInt]
        rw [if_neg (by rw [hp]; exact fun hx => h hx.symm),
          if_neg (by rw [hp]; exact fun hx => h hx.symm)]
        exact ih
      · rw [if_neg hp]
        simp only [alookInt]
        by_cases hp2 : p.1 = k2
        · rw [if_pos hp2, if_pos hp2]
        · rw [if_neg hp2, if_neg hp2]
          exact ih
  · rw [if_neg hany]
    clear hany
    induction acc with
    | nil =>
      simp only [List.nil_append, alookInt]
      rw [if_neg (fun hx => h hx.symm)]
    | cons p rest ih =>
      rw [List.cons_append]
      simp only [alookInt]
      by_cases hp2 : p.1 = k2
      · rw [if_pos hp2, if_pos hp2]
      · rw [if_neg hp2, if_neg hp2]
        exact ih

lemma merge_fold_keys (l : List (String × Int)) :
    ∀ (acc : List (String × Int)) (k2 : String),
      k2 ∈ ((l.foldl (fun acc p =>
        dictAddInt acc (Segment.normalize_semantic p.1) p.2) acc).map Prod.fst) →
      k2 ∈ acc.map Prod.fst ∨ ∃ q ∈ l, Segment.normalize_semantic q.1 = k2 := by
  induction l with
  | nil => intro acc k2 h; exact Or.inl h
  | cons p rest ih =>
    intro acc k2 h
    rw [List.foldl_cons] at h
    rcases ih _ k2 h with h2 | h2
    · rcases dictAddInt_keys acc _ _ k2 h2 with h3 | h3
      · exact Or.inl h3
      · exact Or.inr ⟨p, List.mem_cons_self p rest, h3.symm⟩
    · obtain ⟨q, hq, hqk⟩ := h2
      exact Or.inr ⟨q, List.mem_cons_of_mem p hq, hqk⟩

lemma merge_fold_nodup (l : List (String × Int)) :
    ∀ acc : List (String × Int), (acc.map Prod.fst).Nodup →
      ((l.foldl (fun acc p =>
        dictAddInt acc (Segment.normalize_semantic p.1) p.2) acc).map Prod.fst).Nodup := by
  induction l with
  | nil => intro acc h; exact h
  | cons p rest ih =>
    intro acc h
    rw [List.foldl_cons]
    exact ih _ (dictAddInt_keys_nodup acc _ _ h)

lemma merge_fold_getD (l : List (String × Int)) :
    ∀ (acc : List (String × Int)) (k : String),
      (alookInt k (l.foldl (fun acc p =>
        dictAddInt acc (Segment.normalize_semantic p.1) p.2) acc)).getD 0 =
      (alookInt k acc).getD 0 +
        ((l.filter (fun q => Segment.normalize_semantic q.1 = k)).map Prod.snd).sum := by
  induction l with
  | nil => intro acc k; simp
  | cons p rest ih =>
    intro acc k
    rw [List.foldl_cons, ih, List.filter_cons]
    by_cases hk : Segment.normalize_semantic p.1 = k
    · rw [if_pos (by simp [hk])]
      rw [hk, alookInt_dictAddInt_same]
      simp only [Option.getD_some, List.map_cons, List.sum_cons]
      ring
    · rw [if_neg (by simp [hk])]
      rw [alookInt_dictAddInt_other acc _ _ k (fun hx => hk hx.symm)]

/-- C3 (amended): `merge_semantic_duplicates` (segment.py) does map every
key through the semantic canonicalizer and sums counts per canonical key
— every output pair carries a canonical key and the total count of the
input entries mapping to it, and the spec's concrete example holds — but
the frequency aggregator (reducer.py) never invokes it: after
dedup-by-inclusion the aggregated pairs are printed as they are, with no
semantic merge. -/
theorem claim3_theorem :
    (∀ (l : List (String × Int)), ∀ p ∈ merge_semantic_duplicates l,
      Segment.normalize_semantic p.1 = p.1 ∧
      p.2 = ((l.filter (fun q =>
        Segment.normalize_semantic q.1 = p.1)).map Prod.snd).sum) ∧
    merge_semantic_duplicates [("回应", 5), ("发声", 3), ("表态", 2)] = [("发声", 10)] ∧
    reducerOutput ["回应\t5", "发声\t3", "表态\t2"] =
      [("回应", 5), ("发声", 3), ("表态", 2)] := by
  refine ⟨?_, by decide, by decide⟩
  intro l p hp
  unfold merge_semantic_duplicates at hp
  by_cases hl : l.isEmpty = true
  · rw [if_pos hl] at hp
    cases hp
  · rw [if_neg hl, mem_sortCountDesc] at hp
    have hkeys := merge_fold_keys l [] p.1 (List.mem_map.mpr ⟨p, hp, rfl⟩)
    have hnd := merge_fold_nodup l [] (by simp)
    have hmem : (p.1, p.2) ∈ l.foldl (fun acc p =>
        dictAddInt acc (Segment.normalize_semantic p.1) p.2) [] := by
      rw [Prod.mk.eta]
      exact hp
    have hlook := alookInt_of_mem_nodup p.1 p.2 _ hnd hmem
    have hgetD := merge_fold_getD l [] p.1
    rw [hlook] at hgetD
    simp only [Option.getD_some, alookInt, Option.getD_none, zero_add] at hgetD
    constructor
    · rcases hkeys with h | ⟨q, _, hqk⟩
      · cases h
      · rw [← hqk, ns_segment_idem]
    · exact hgetD

/-- C3 witness for the universally quantified part. -/
theorem claim3_witness :
    Segment.normalize_semantic "手术" = "手术" ∧
    (7 : Int) = ((([("回应", 5), ("开刀", 7)] : List (String × Int)).filter
      (fun q => Segment.normalize_semantic q.1 = "手术")).map Prod.snd).sum := by
  have h := claim3_theorem.1 [("回应", 5), ("开刀", 7)] ("手术", 7) (by decide)
  exact ⟨h.1, h.2⟩

/-- C3 counterexample: the frequency aggregator's output on the spec's own
example keys is not semantically merged — 回应 and 表态 survive unchanged
and no (发声, 10) entry exists, although the canonicalizer maps all three
keys to 发声. -/
theorem claim3_counterexample :
    reducerOutput ["回应\t5", "发声\t3", "表态\t2"] =
      [("回应", 5), ("发声", 3), ("表态", 2)] ∧
    Segment.normalize_semantic "回应" = "发声" ∧
    Mapper.normalize_semantic "回应" = "发声" ∧
    ("发声", (10 : Int)) ∉ reducerOutput ["回应\t5", "发声\t3", "表态\t2"] := by
  decide

/-! ## cooccurrence_mapper.py (C6) -/

/-- Line parsing of cooccurrence_mapper.py `main`: strip, require a comma,
keep the payload after the first comma, strip it, require it nonempty,
whitespace-split (the rank field is ignored and nothing here can raise). -/
def parseCoLine (line : String) : Option (List String) :=
  let l := pyStrip line
  if l.isEmpty || !l.data.contains ',' then none
  else
    match breakAt ',' l.data with
    | none => none
    | some (_, restCs) =>
      let toksStr := pyStrip ⟨restCs⟩
      if toksStr.isEmpty then none else some (pySplitWs toksStr)

/-- `itertools.combinations(l, 2)` in its emission order. -/
def combinations2 : List String → List (String × String)
  | [] => []
  | x :: rest => rest.map (fun y => (x, y)) ++ combinations2 rest

/-- The pairs printed by cooccurrence_mapper.py for one line:
tokens of length ≥ 2, sorted, all two-element combinations. -/
def coPairs (line : String) : List (String × String) :=
  match parseCoLine line with
  | none => []
  | some toks => combinations2 (sortStrAsc (toks.filter (fun t => 2 ≤ t.length)))

lemma strLtb_irrefl : ∀ l : List Char, strLtb l l = false := by
  intro l
  induction l with
  | nil => rfl
  | cons a as ih =>
    unfold strLtb
    rw [if_neg (by omega : ¬ a.toNat < a.toNat),
      if_neg (by omega : ¬ a.toNat < a.toNat)]
    exact ih

lemma strLtb_trans : ∀ l1 l2 l3 : List Char,
    strLtb l1 l2 = true → strLtb l2 l3 = true → strLtb l1 l3 = true := by
  intro l1
  induction l1 with
  | nil =>
    intro l2 l3 h1 h2
    cases l2 with
    | nil => simp [strLtb] at h1
    | cons b bs =>
      cases l3 with
      | nil => simp [strLtb] at h2
      | cons c cs => rfl
  | cons a as ih =>
    intro l2 l3 h1 h2
    cases l2 with
    | nil => simp [strLtb] at h1
    | cons b bs =>
      cases l3 with
      | nil => simp [strLtb] at h2
      | cons c cs =>
        simp only [strLtb] at h1 h2 ⊢
        by_cases hab : a.toNat < b.toNat
        · by_cases hbc : b.toNat < c.toNat
          · rw [if_pos (by omega : a.toNat < c.toNat)]
          · rw [if_neg hbc] at h2
            by_cases hcb : c.toNat < b.toNat
            · rw [if_pos hcb] at h2
              simp at h2
            · rw [if_pos (by omega : a.toNat < c.toNat)]
        · rw [if_neg hab] at h1
          by_cases hba : b.toNat < a.toNat
          · rw [if_pos hba] at h1
            simp at h1
          · rw [if_neg hba] at h1
            by_cases hbc : b.toNat < c.toNat
            · rw [if_pos (by omega : a.toNat < c.toNat)]
            · rw [if_neg hbc] at h2
              by_cases hcb : c.toNat < b.toNat
              · rw [if_pos hcb] at h2
                simp at h2
              · rw [if_neg hcb] at h2
                rw [if_neg (by omega : ¬ a.toNat < c.toNat),
                  if_neg (by omega : ¬ c.toNat < a.toNat)]
                exact ih bs cs h1 h2

lemma strLtb_connex : ∀ l1 l2 : List Char, l1 ≠ l2 →
    strLtb l1 l2 = true ∨ strLtb l2 l1 = true := by
  intro l1
  induction l1 with
  | nil =>
    intro l2 h
    cases l2 with
    | nil => exact absurd rfl h
    | cons b bs => exact Or.inl rfl
  | cons a as ih =>
    intro l2 h
    cases l2 with
    | nil => exact Or.inr rfl
    | cons b bs =>
      by_cases hab : a.toNat < b.toNat
      · left
        unfold strLtb
        rw [if_pos hab]
      · by_cases hba : b.toNat < a.toNat
        · right
          unfold strLtb
          rw [if_pos hba]
        · have hEq : a = b := char_toNat_inj a b (by omega)
          subst hEq
          have hne : as ≠ bs := fun hx => h (by rw [hx])
          rcases ih bs hne with h2 | h2
          · left
            unfold strLtb
            rw [if_neg hab, if_neg hab]
            exact h2
          · right
            unfold strLtb
            rw [if_neg hab, if_neg hab]
            exact h2

lemma pyStrLt_irrefl (a : String) : pyStrLt a a = false := strLtb_irrefl a.data

lemma pyStrLt_trans (a b c : String) (h1 : pyStrLt a b = true)
    (h2 : pyStrLt b c = true) : pyStrLt a c = true :=
  strLtb_trans a.data b.data c.data h1 h2

lemma pyStrLt_connex (a b : String) (h : a ≠ b) :
    pyStrLt a b = true ∨ pyStrLt b a = true :=
  strLtb_connex a.data b.data (fun hx => h (String.ext hx))

lemma pyStrLt_asymm (a b : String) (h : pyStrLt a b = true) : pyStrLt b a = false := by
  apply Bool.eq_false_iff.mpr
  intro h2
  have := pyStrLt_trans a b a h h2
  rw [pyStrLt_irrefl] at this
  cases this

lemma perm_insertStrAsc (x : String) :
    ∀ l : List String, (insertStrAsc x l).Perm (x :: l) := by
  intro l
  induction l with
  | nil => exact List.Perm.refl _
  | cons y rest ih =>
    unfold insertStrAsc
    by_cases hx : pyStrLt x y = true
    · rw [if_pos hx]
    · rw [if_neg hx]
      exact ((ih.cons y).trans (List.Perm.swap x y rest))

lemma perm_sortStrAsc (l : List String) : (sortStrAsc l).Perm l := by
  unfold sortStrAsc
  have main : ∀ acc : List String,
      (l.foldl (fun acc x => insertStrAsc x acc) acc).Perm (acc ++ l) := by
    induction l with
    | nil => intro acc; simp
    | cons x rest ih =>
      intro acc
      rw [List.foldl_cons]
      refine (ih (insertStrAsc x acc)).trans ?_
      have h1 : (insertStrAsc x acc ++ rest).Perm ((x :: acc) ++ rest) :=
        (perm_insertStrAsc x acc).append_right rest
      refine h1.trans ?_
      exact List.perm_middle.symm
  simpa using main []

lemma sorted_insertStrAsc (x : String) :
    ∀ l : List String, l.Sorted (fun a b => pyStrLt b a = false) →
      (insertStrAsc x l).Sorted (fun a b => pyStrLt b a = false) := by
  intro l
  induction l with
  | nil => intro _; simp [insertStrAsc]
  | cons y rest ih =>
    intro hs
    rw [List.sorted_cons] at hs
    obtain ⟨hy, hrest⟩ := hs
    unfold insertStrAsc
    by_cases hx : pyStrLt x y = true
    · rw [if_pos hx]
      rw [List.sorted_cons]
      constructor
      · intro b hb
        rcases List.mem_cons.mp hb with hb | hb
        · exact hb ▸ pyStrLt_asymm x y hx
        · apply Bool.eq_false_iff.mpr
          intro hbx
          have h2 := hy b hb
          have h3 := pyStrLt_trans b x y hbx hx
          rw [h2] at h3
          cases h3
      · exact List.sorted_cons.mpr ⟨hy, hrest⟩
    · rw [if_neg hx]
      rw [List.sorted_cons]
      constructor
      · intro b hb
        have := (perm_insertStrAsc x rest).mem_iff.mp hb
        rcases List.mem_cons.mp this with hb2 | hb2
        · subst hb2
          exact Bool.eq_false_iff.mpr hx
        · exact hy b hb2
      · exact ih hrest

lemma sorted_sortStrAsc (l : List String) :
    (sortStrAsc l).Sorted (fun a b => pyStrLt b a = false) := by
  unfold sortStrAsc
  have main : ∀ acc : List String,
      acc.Sorted (fun a b => pyStrLt b a = false) →
      (l.foldl (fun acc x => insertStrAsc x acc) acc).Sorted
        (fun a b => pyStrLt b a = false) := by
    induction l with
    | nil => intro acc h; exact h
    | cons x rest ih =>
      intro acc h
      rw [List.foldl_cons]
      exact ih _ (sorted_insertStrAsc x acc h)
  exact main [] (by simp)

lemma sorted_lt_of_nodup (l : List String)
    (hs : l.Sorted (fun a b => pyStrLt b a = false)) (hn : l.Nodup) :
    l.Sorted (fun a b => pyStrLt a b = true) := by
  have := List.Pairwise.and hs hn
  refine this.imp ?_
  rintro a b ⟨h1, h2⟩
  rcases pyStrLt_connex a b h2 with h | h
  · exact h
  · rw [h1] at h
    cases h

lemma mem_combinations2 :
    ∀ l : List String, l.Sorted (fun a b => pyStrLt a b = true) →
      ∀ a b : String, ((a, b) ∈ combinations2 l ↔
        a ∈ l ∧ b ∈ l ∧ pyStrLt a b = true) := by
  intro l
  induction l with
  | nil => intro _ a b; simp [combinations2]
  | cons x rest ih =>
    intro hs a b
    rw [List.sorted_cons] at hs
    obtain ⟨hx, hrest⟩ := hs
    unfold combinations2
    rw [List.mem_append]
    constructor
    · rintro (h | h)
      · obtain ⟨y, hy, hxy⟩ := List.mem_map.mp h
        injection hxy with h1 h2
        subst h1
        subst h2
        exact ⟨List.mem_cons_self x rest, List.mem_cons_of_mem x hy, hx y hy⟩
      · have := (ih hrest a b).mp h
        exact ⟨List.mem_cons_of_mem x this.1, List.mem_cons_of_mem x this.2.1, this.2.2⟩
    · rintro ⟨ha, hb, hab⟩
      by_cases hax : a = x
      · subst hax
        left
        have hbrest : b ∈ rest := by
          rcases List.mem_cons.mp hb with hbx | hbx
          · subst hbx
            rw [pyStrLt_irrefl] at hab
            cases hab
          · exact hbx
        exact List.mem_map.mpr ⟨b, hbrest, rfl⟩
      · right
        have harest : a ∈ rest := by
          rcases List.mem_cons.mp ha with hx2 | hx2
          · exact absurd hx2 hax
          · exact hx2
        have hbrest : b ∈ rest := by
          rcases List.mem_cons.mp hb with hbx | hbx
          · subst hbx
            have h2 := hx a harest
            have h3 := pyStrLt_trans a b a hab h2
            rw [pyStrLt_irrefl] at h3
            cases h3
          · exact hbx
        exact (ih hrest a b).mpr ⟨harest, hbrest, hab⟩

lemma nodup_combinations2 :
    ∀ l : List String, l.Sorted (fun a b => pyStrLt a b = true) →
      (combinations2 l).Nodup := by
  intro l
  induction l with
  | nil => intro _; simp [combinations2]
  | cons x rest ih =>
    intro hs
    rw [List.sorted_cons] at hs
    obtain ⟨hx, hrest⟩ := hs
    unfold combinations2
    have hrestnd : rest.Nodup := by
      refine hrest.imp ?_
      intro a b hab
      intro hEq
      subst hEq
      rw [pyStrLt_irrefl] at hab
      cases hab
    refine List.Nodup.append ?_ (ih hrest) ?_
    · refine List.Nodup.map ?_ hrestnd
      intro u v huv
      injection huv
    · intro p hp1 hp2
      obtain ⟨y, hy, hxy⟩ := List.mem_map.mp hp1
      have hfst : p.1 = x := by rw [← hxy]
      have hp2a : (p.1, p.2) ∈ combinations2 rest := by
        rw [Prod.mk.eta]
        exact hp2
      have := (mem_combinations2 rest hrest p.1 p.2).mp hp2a
      have hlt := hx p.1 this.1
      rw [hfst, pyStrLt_irrefl] at hlt
      cases hlt

/-- C6: for an input line whose tokens of length ≥ 2 are pairwise
distinct, the co-occurrence mapper emits each unordered pair of two
distinct valid tokens exactly once — the emitted list has no duplicates,
and `(a, b)` is emitted iff both are valid tokens of the line and `a`
precedes `b` in code-point order; hence no `(A, A)` is emitted and no
unordered pair appears in both orders. -/
theorem claim6_theorem (line : String) (toks : List String)
    (h1 : parseCoLine line = some toks)
    (h2 : (toks.filter (fun t => 2 ≤ t.length)).Nodup) :
    (coPairs line).Nodup ∧
    (∀ a b : String, (a, b) ∈ coPairs line ↔
      (a ∈ toks.filter (fun t => 2 ≤ t.length) ∧
       b ∈ toks.filter (fun t => 2 ≤ t.length) ∧ pyStrLt a b = true)) := by
  unfold coPairs
  rw [h1]
  have hperm := perm_sortStrAsc (toks.filter (fun t => 2 ≤ t.length))
  have hnodup : (sortStrAsc (toks.filter (fun t => 2 ≤ t.length))).Nodup :=
    hperm.nodup_iff.mpr h2
  have hsorted := sorted_lt_of_nodup _
    (sorted_sortStrAsc (toks.filter (fun t => 2 ≤ t.length))) hnodup
  constructor
  · exact nodup_combinations2 _ hsorted
  · intro a b
    rw [mem_combinations2 _ hsorted a b, hperm.mem_iff, hperm.mem_iff]

/-- C6 witness: a concrete line with three distinct valid tokens. -/
theorem claim6_witness :
    (coPairs "1,足球 中国 天气").Nodup ∧
    ("中国", "天气") ∈ coPairs "1,足球 中国 天气" ∧
    ("天气", "中国") ∉ coPairs "1,足球 中国 天气" := by
  have h := claim6_theorem "1,足球 中国 天气" ["足球", "中国", "天气"]
    (by decide) (by decide)
  refine ⟨h.1, (h.2 "中国" "天气").mpr (by decide), ?_⟩
  intro hmem
  have := (h.2 "天气" "中国").mp hmem
  exact absurd this.2.2 (by decide)

/-! ## segment.py: token filter and tokenize (C7)

`tokenize` first runs `clean_title` and hands the cleaned title to jieba's
POS segmentation.  The tagger is an external collaborator (spec §1 calls
it an external pure-function capability `title -> ordered (surface, tag)
pairs`), so the embedding takes the tagged sequence as its input and
models everything segment.py itself does with it (the `pseg` branch). -/

/-- CJK test of `re.search(r"[一-鿿]", w)`. -/
def isCJK (c : Char) : Bool := 0x4e00 ≤ c.toNat && c.toNat ≤ 0x9fff

/-- `re.search` of the CJK class over a string. -/
def hasCJK (s : String) : Bool := s.data.any isCJK

namespace Segment

/-- `BAD_WORDS` of segment.py (a Python set; list membership is the same
test). -/
def BAD_WORDS : List String :=
  ["粉丝", "感动", "预告片", "回收", "产业链", "摔倒", "房型",
   "妹妹", "妹", "妹子", "小妹", "儿子", "女儿", "老公", "老婆",
   "姐姐", "姐", "哥哥", "哥", "妈妈", "妈", "爸爸", "爸",
   "小", "大", "太", "很", "真的", "觉得", "好像", "一个",
   "现场", "视频", "照片", "网友", "热搜", "回应", "最新",
   "爆料", "真相", "原因", "结果", "进展", "后续", "瓜",
   "妹小", "这个", "那个", "什么", "怎么", "如何", "为什么",
   "已经", "开始", "结束", "终于", "可能", "应该", "需要",
   "大家", "有人", "没有", "不是", "就是",
   "但是", "而且", "虽然", "因为", "所以", "如果", "只有",
   "自己", "别人", "事情", "问题", "东西", "时候", "地方",
   "一下", "一点", "一些", "这种", "那样", "怎样",
   "确实", "简直", "居然", "竟然", "总算",
   "看看", "说说", "听听", "问问", "想想", "念念",
   "今天", "昨天", "明天", "今年", "去年", "明年", "以前",
   "以后", "现在", "马上", "立刻", "正在", "曾经",
   "还有", "只有", "都是", "总是", "经常", "偶尔",
   "也许", "大概", "似乎", "仿佛", "反正",
   "实在", "果然", "难怪", "怪不得",
   "千万", "一定", "必须",
   "快来", "快去", "快看", "快听", "快说", "快打",
   "来了", "去了", "看了", "听了", "说了", "打了",
   "热搜榜", "热榜", "话题", "超话", "广场",
   "微博", "微博之夜", "微博电影",
   "工作室", "公司", "方面", "消息",
   "第一时间", "最新消息", "刚刚", "官方回应",
   "强烈推荐", "推荐", "来看", "这部", "太好",
   "太好哭", "太好笑", "一起来", "一起来看"]

/-- The alternatives of `KINSHIP_RE`
`(妹|姐|哥|弟|嫂|姨|叔|舅|爸|妈|爹|娘|儿子|女儿|老公|老婆)`. -/
def KINSHIP_PATTERNS : List String :=
  ["妹", "姐", "哥", "弟", "嫂", "姨", "叔", "舅", "爸", "妈", "爹", "娘",
   "儿子", "女儿", "老公", "老婆"]

/-- `KINSHIP_RE.search(w)`: some alternative occurs in `w`. -/
def kinshipSearch (w : String) : Bool :=
  KINSHIP_PATTERNS.any (fun p => isSubstr p w)

/-- `BAD_COMPONENT` of segment.py. -/
def BAD_COMPONENT : List String :=
  ["妹", "小", "姐", "哥", "儿子", "女儿", "粉丝", "微博", "热搜"]

/-- `ALLOW_POS_EXACT` of segment.py. -/
def ALLOW_POS_EXACT : List String := ["nr", "ns", "nt", "nz", "eng", "an", "i", "j"]

/-- The tuple `ALLOW_POS_PREFIX = ("n", "v", "a", "eng")` of segment.py. -/
def ALLOW_POS_HEADS : List String := ["n", "v", "a", "eng"]

/-- `allow_by_pos` of segment.py. -/
def allow_by_pos (flag : String) : Bool :=
  if flag.isEmpty then false
  else if ALLOW_POS_EXACT.contains flag then true
  else ALLOW_POS_HEADS.any (fun p => strStarts p flag)

/-- `is_bad_token` of segment.py. -/
def is_bad_token (w : String) (stop : List String) : Bool :=
  if w.isEmpty then true
  else if stop.contains w then true
  else if BAD_WORDS.contains w then true
  else if pyIsdigit w then true
  else if isAsciiAlphaStr w && w.length < 2 then true
  else if hasCJK w && (w.length < 2 || w.length > 10) then true
  else if kinshipSearch w && w.length ≤ 4 then true
  else false

/-- The tuple `high_value_flags = ("nr", "ns", "nt", "nz")`. -/
def HIGH_VALUE_FLAGS : List String := ["nr", "ns", "nt", "nz"]

/-- `calculate_word_score` of segment.py. -/
def calculate_word_score (word : String) (flag1 flag2 : String)
    (pos_list : List (String × String)) : Int :=
  2 * (word.length : Int) +
  (if ALLOW_POS_EXACT.contains flag1 || ALLOW_POS_EXACT.contains flag2 then 10 else 0) +
  (if strStarts "n" flag1 || strStarts "n" flag2 then 5 else 0) +
  (if strStarts "a" flag1 || strStarts "a" flag2 then 3 else 0) +
  (if HIGH_VALUE_FLAGS.contains flag1 || HIGH_VALUE_FLAGS.contains flag2 then 15 else 0) +
  2 * ((pos_list.filter (fun q => q.1 ≠ word && isSubstr word q.1)).length : Int)

/-- The first pass of `tokenize`: normalise, POS-filter and
quality-filter one tagged token, appending survivors (this builds
`pos_list`; `tokens` is its first projection, built in lockstep in the
source). -/
def tokStep (stop : List String) (acc : List (String × String))
    (q : String × String) : List (String × String) :=
  let w := normalize_word q.1
  if w.isEmpty then acc
  else if !allow_by_pos q.2 then acc
  else if is_bad_token w stop then acc
  else acc ++ [(w, q.2)]

/-- The phrase candidate built from one adjacent pair of `pos_list`
entries, with its score; `none` when any guard rejects it. -/
def phraseOf (stop : List String) (pos_list : List (String × String))
    (pq : (String × String) × (String × String)) : Option (String × Int) :=
  if BAD_COMPONENT.contains pq.1.1 || BAD_COMPONENT.contains pq.2.1 then none
  else if kinshipSearch pq.1.1 || kinshipSearch pq.2.1 then none
  else
    let ok1 := ALLOW_POS_EXACT.contains pq.1.2 || strStarts "n" pq.1.2 ||
      strStarts "a" pq.1.2 || pq.1.2 = ""
    let ok2 := ALLOW_POS_EXACT.contains pq.2.2 || strStarts "n" pq.2.2 ||
      strStarts "a" pq.2.2 || pq.2.2 = ""
    if !(ok1 && ok2) then none
    else
      let phrase := normalize_word (pq.1.1 ++ pq.2.1)
      if is_bad_token phrase stop then none
      else if phrase.length < 2 || phrase.length > 8 then none
      else some (phrase, calculate_word_score phrase pq.1.2 pq.2.2 pos_list)

/-- `tokenize` of segment.py over an externally produced tagged
segmentation: first pass, adjacent-pair phrase building and scoring,
stable sort by score descending, shared-seen dedup of phrases then
tokens, and the 40-entry cap. -/
def tokenizeTagged (tagged : List (String × String)) (stop : List String) :
    List String :=
  let pos_list := tagged.foldl (tokStep stop) []
  if pos_list.isEmpty then []
  else
    let phrases := (pos_list.zip pos_list.tail).filterMap (phraseOf stop pos_list)
    let sortedPhrases := sortCountDesc phrases
    let tokens := pos_list.map Prod.fst
    (dedupFirstAux [] (sortedPhrases.map Prod.fst ++ tokens)).take 40

end Segment

lemma is_bad_token_props (w : String) (stop : List String)
    (h : Segment.is_bad_token w stop = false) :
    Segment.BAD_WORDS.contains w = false ∧
    (hasCJK w = true → 2 ≤ w.length ∧ w.length ≤ 10) ∧
    (isAsciiAlphaStr w = true → 2 ≤ w.length) := by
  unfold Segment.is_bad_token at h
  split_ifs at h with h1 h2 h3 h4 h5 h6 h7
  refine ⟨Bool.eq_false_iff.mpr h3, ?_, ?_⟩
  · intro hcjk
    have : ¬ (w.length < 2 ∨ w.length > 10) := by
      intro hx
      apply h6
      rw [hcjk]
      simp only [Bool.true_and]
      rcases hx with hx | hx <;> simp [hx]
    omega
  · intro halpha
    have : ¬ w.length < 2 := by
      intro hx
      apply h5
      rw [halpha]
      simp [hx]
    omega

lemma dedupFirstAux_subset :
    ∀ (l : List String) (seen : List String) (x : String),
      x ∈ dedupFirstAux seen l → x ∈ l := by
  intro l
  induction l with
  | nil => intro seen x h; exact h
  | cons y rest ih =>
    intro seen x h
    unfold dedupFirstAux at h
    by_cases hy : seen.contains y = true
    · rw [if_pos hy] at h
      exact List.mem_cons_of_mem y (ih seen x h)
    · rw [if_neg hy] at h
      rcases List.mem_cons.mp h with h2 | h2
      · exact h2 ▸ List.mem_cons_self y rest
      · exact List.mem_cons_of_mem y (ih (y :: seen) x h2)

lemma tokStep_mem (stop : List String) (acc : List (String × String))
    (q p : String × String) (h : p ∈ Segment.tokStep stop acc q) :
    p ∈ acc ∨ Segment.is_bad_token p.1 stop = false := by
  simp only [Segment.tokStep] at h
  by_cases h1 : (Segment.normalize_word q.1).isEmpty = true
  · rw [if_pos h1] at h
    exact Or.inl h
  · rw [if_neg h1] at h
    by_cases h2 : (!Segment.allow_by_pos q.2) = true
    · rw [if_pos h2] at h
      exact Or.inl h
    · rw [if_neg h2] at h
      by_cases h3 : Segment.is_bad_token (Segment.normalize_word q.1) stop = true
      · rw [if_pos h3] at h
        exact Or.inl h
      · rw [if_neg h3] at h
        rcases List.mem_append.mp h with h4 | h4
        · exact Or.inl h4
        · simp only [List.mem_singleton] at h4
          subst h4
          exact Or.inr (Bool.eq_false_iff.mpr h3)

lemma pos_list_mem (stop : List String) (tagged : List (String × String)) :
    ∀ (acc : List (String × String)) (p : String × String),
      p ∈ tagged.foldl (Segment.tokStep stop) acc →
      p ∈ acc ∨ Segment.is_bad_token p.1 stop = false := by
  induction tagged with
  | nil => intro acc p h; exact Or.inl h
  | cons q rest ih =>
    intro acc p h
    rw [List.foldl_cons] at h
    rcases ih _ p h with h2 | h2
    · exact tokStep_mem stop acc q p h2
    · exact Or.inr h2

lemma phraseOf_good (stop : List String) (pos_list : List (String × String))
    (pq : (String × String) × (String × String)) (r : String × Int)
    (h : Segment.phraseOf stop pos_list pq = some r) :
    Segment.is_bad_token r.1 stop = false := by
  simp only [Segment.phraseOf] at h
  split at h
  · exact Option.noConfusion h
  split at h
  · exact Option.noConfusion h
  split at h
  · exact Option.noConfusion h
  split at h
  · exact Option.noConfusion h
  split at h
  · exact Option.noConfusion h
  rename_i hc1 hc2 hc3 hbad hlen
  simp only [Option.some.injEq] at h
  subst h
  exact Bool.eq_false_iff.mpr hbad

/-- C7 (amended): for every tagged segmentation and every stopword set,
every token emitted by `tokenize` is absent from the BAD_WORDS blacklist,
has length in [2, 10] whenever it contains a CJK character, and has
length ≥ 2 whenever it is purely ASCII-alphabetic.  (The two categories
are not exhaustive: a mixed letter-digit token passes every filter while
being in neither — see the counterexample.) -/
theorem claim7_theorem (tagged : List (String × String)) (stop : List String)
    (t : String) (h : t ∈ Segment.tokenizeTagged tagged stop) :
    Segment.BAD_WORDS.contains t = false ∧
    (hasCJK t = true → 2 ≤ t.length ∧ t.length ≤ 10) ∧
    (isAsciiAlphaStr t = true → 2 ≤ t.length) := by
  have hbad : Segment.is_bad_token t stop = false := by
    unfold Segment.tokenizeTagged at h
    by_cases hps : (tagged.foldl (Segment.tokStep stop) []).isEmpty = true
    · rw [if_pos hps] at h
      cases h
    · rw [if_neg hps] at h
      have h2 := dedupFirstAux_subset _ [] t (List.mem_of_mem_take h)
      rcases List.mem_append.mp h2 with h3 | h3
      · obtain ⟨r, hr, hrt⟩ := List.mem_map.mp h3
        rw [mem_sortCountDesc] at hr
        obtain ⟨pq, _, hpq⟩ := List.mem_filterMap.mp hr
        have := phraseOf_good stop _ pq r hpq
        rw [hrt] at this
        exact this
      · obtain ⟨p, hp, hpt⟩ := List.mem_map.mp h3
        rcases pos_list_mem stop tagged [] p hp with h4 | h4
        · cases h4
        · rw [hpt] at h4
          exact h4
  exact is_bad_token_props t stop hbad

/-- C7 witness: a two-token CJK segmentation. -/
theorem claim7_witness :
    Segment.BAD_WORDS.contains "北京" = false ∧
    (hasCJK "北京" = true → 2 ≤ ("北京" : String).length ∧ ("北京" : String).length ≤ 10) ∧
    (isAsciiAlphaStr "北京" = true → 2 ≤ ("北京" : String).length) :=
  claim7_theorem [("北京", "ns"), ("下雪", "v")] [] "北京" (by decide)

/-- C7 counterexample: the mixed alphanumeric token iphone15 survives
every filter of `tokenize`, yet it neither contains a CJK character nor
is purely ASCII-alphabetic, so the claimed dichotomy fails. -/
theorem claim7_counterexample :
    Segment.tokenizeTagged [("iphone15", "eng")] [] = ["iphone15"] ∧
    hasCJK "iphone15" = false ∧
    isAsciiAlphaStr "iphone15" = false := by decide
